import Mathlib

/-!
# Sharding proxy of the RDF triple store (`sharding/sharding.cc`)

A shallow embedding of the dispatcher in `src/sharding/sharding.cc`:

* `Fanout`, the scalar fan-out behind `RemoveStatements`, `Clear` and `Size`, as a
  transition system over its worker threads;
* the streaming write handlers `AddNamespaces`, `AddStatements` and `Update`;
* the merging reader `GetStatements`, as a transition system over its worker threads.

The backends are the environment. A unary call on shard `i` yields a status and the
content of the reply slot; a client-streaming call on shard `i` yields, at `Finish()`,
a status and a reply that may depend on the records written to that shard.
-/

namespace marmotta.sharding

/-! ## Statuses and 64-bit values -/

/-- The status of a call (`grpc::Status`): an error code, `0` being `OK`, and a message. -/
structure Status where
  error_code : Nat
  error_message : String
deriving DecidableEq, Repr

/-- The constant `Status::OK`. -/
def Status.OK : Status := ⟨0, ""⟩

/-- The test `Status::ok()`: the error code is `OK`. -/
def Status.ok (s : Status) : Bool := s.error_code == 0

/-- Two's-complement reduction of an integer to the range of `int64_t`. -/
def wrapInt64 (x : Int) : Int :=
  (x + 9223372036854775808) % 18446744073709551616 - 9223372036854775808

/-- The range of `int64_t`. -/
def inInt64 (x : Int) : Prop := -9223372036854775808 ≤ x ∧ x < 9223372036854775808

instance (x : Int) : Decidable (inInt64 x) := by unfold inInt64; infer_instance

/-- The reply message `google::protobuf::Int64Value`; a fresh message holds `0`. -/
structure Int64Value where
  value : Int
deriving DecidableEq, Repr

/-- A default-constructed `Int64Value`. -/
def Int64Value.fresh : Int64Value := ⟨0⟩

/-! ## Scalar fan-out

`Fanout` starts one worker thread per backend and joins them. The workers are modelled as a
transition system: a schedule is the sequence in which the threads are given a turn, and a
turn of a thread executes its next step. The statement `r += response.value()` on the shared
accumulator is two steps, reading `r` and writing it back, since the source does not
synchronise it. -/

/-- Where a worker of `Fanout` stands. -/
inductive FanoutPc where
  /-- Before the stub call `statuses[i] = ((*stub).*ClientMethod)(&localctx, request, &response)`. -/
  | call
  /-- At `r += response.value()`, before `r` is read. -/
  | load
  /-- Inside `r += response.value()`: `r` has been read and is not yet written back. -/
  | store
  /-- Past its last statement. -/
  | finished
deriving DecidableEq, Repr

/-- The locals of one worker of `Fanout`: its reply slot `response`, the value of `r` it has
read, and its position. -/
structure FanoutWorker where
  response : Int64Value
  loaded : Int
  pc : FanoutPc

/-- The state shared by the workers of one `Fanout` call: the workers by backend index, the
vector `statuses`, and the accumulator `r`. -/
structure FanoutState where
  workers : Nat → FanoutWorker
  statuses : Nat → Status
  r : Int

/-- The state once the threads have been started: `statuses` holds default statuses, `r` is
zero, and every worker has a fresh reply slot. -/
def Fanout.init : FanoutState :=
  ⟨fun _ => ⟨Int64Value.fresh, 0, FanoutPc.call⟩, fun _ => Status.OK, 0⟩

/-- One turn of worker `i` among `n` workers. `ClientMethod i request` is the outcome of the
stub call on backend `i`: the returned status and the content of the reply slot after the
call. The worker adds its reply slot to `r` whatever the status of its call. There is no
successor state when `i` is not a worker or when the worker is finished. -/
def Fanout.step {Request : Type} (ClientMethod : Nat → Request → Status × Int64Value)
    (request : Request) (n : Nat) (s : FanoutState) (i : Nat) : Option FanoutState :=
  if i < n then
    match (s.workers i).pc with
    | FanoutPc.call =>
      some { s with
        statuses := Function.update s.statuses i (ClientMethod i request).1
        workers := Function.update s.workers i
          { s.workers i with response := (ClientMethod i request).2, pc := FanoutPc.load } }
    | FanoutPc.load =>
      some { s with
        workers := Function.update s.workers i
          { s.workers i with loaded := s.r, pc := FanoutPc.store } }
    | FanoutPc.store =>
      some { s with
        r := wrapInt64 ((s.workers i).loaded + (s.workers i).response.value)
        workers := Function.update s.workers i { s.workers i with pc := FanoutPc.finished } }
    | FanoutPc.finished => none
  else none

/-- The state after the threads have been given their turns in the order of `schedule`; a turn
given to a thread that cannot move changes nothing. -/
def Fanout.run {Request : Type} (ClientMethod : Nat → Request → Status × Int64Value)
    (request : Request) (n : Nat) (s : FanoutState) (schedule : List Nat) : FanoutState :=
  schedule.foldl (fun s i => (Fanout.step ClientMethod request n s i).getD s) s

/-- Whether all `n` workers are finished, so that every `join` returns. -/
def Fanout.joined (n : Nat) (s : FanoutState) : Bool :=
  (List.range n).all (fun i => (s.workers i).pc == FanoutPc.finished)

/-- The closing loop of `Fanout`: `for (auto s : statuses) if (!s.ok()) return s;` followed by
`return Status::OK`. -/
def firstNotOk : List Status → Status
  | [] => Status.OK
  | s :: rest => if !s.ok then s else firstNotOk rest

/-- The template `Fanout` under a schedule of its worker threads: once all the threads are
joined, `r` is stored through `result->set_value(r)` and the first status of `statuses` that
is not OK is returned, or `Status::OK`; there is no return while a thread is still running. -/
def Fanout {Request : Type} (ClientMethod : Nat → Request → Status × Int64Value)
    (request : Request) (backends : List String) (schedule : List Nat) :
    Option (Status × Int64Value) :=
  let s := Fanout.run ClientMethod request backends.length Fanout.init schedule
  if Fanout.joined backends.length s then
    some (firstNotOk ((List.range backends.length).map s.statuses), ⟨s.r⟩)
  else none

/-- At most one of the `n` workers is inside `r += response.value()`. -/
def Fanout.exclusive (n : Nat) (s : FanoutState) : Bool :=
  decide (∀ i, i < n → ∀ j, j < n →
    (s.workers i).pc = FanoutPc.store → (s.workers j).pc = FanoutPc.store → i = j)

/-- A schedule under which the additions to `r` do not overlap: at every point of the run from
`s`, at most one worker is inside `r += response.value()`. -/
def Fanout.serial {Request : Type} (ClientMethod : Nat → Request → Status × Int64Value)
    (request : Request) (n : Nat) : FanoutState → List Nat → Bool
  | s, [] => Fanout.exclusive n s
  | s, i :: rest =>
    Fanout.exclusive n s
      && Fanout.serial ClientMethod request n ((Fanout.step ClientMethod request n s i).getD s) rest

/-- The steps a worker of `Fanout` has still to take. -/
def FanoutWorker.remaining (w : FanoutWorker) : Nat :=
  match w.pc with
  | FanoutPc.call => 3
  | FanoutPc.load => 2
  | FanoutPc.store => 1
  | FanoutPc.finished => 0

/-- The steps that the `n` workers of `Fanout` have still to take. -/
def Fanout.remainingSteps (n : Nat) (s : FanoutState) : Nat :=
  ((List.range n).map (fun i => (s.workers i).remaining)).sum

/-- The sum of the reply slots of the workers that have added theirs to `r`. -/
def Fanout.addedSum (outcome : Nat → Status × Int64Value) (n : Nat) (s : FanoutState) : Int :=
  ((List.range n).map (fun i =>
    if (s.workers i).pc = FanoutPc.finished then (outcome i).2.value else 0)).sum

/-- The invariant of the workers of `Fanout`: a worker past its call has stored the status of
the call in its slot of `statuses` and holds the reply of the call. -/
structure FanoutInv (outcome : Nat → Status × Int64Value) (n : Nat) (s : FanoutState) :
    Prop where
  called : ∀ i, i < n → (s.workers i).pc ≠ FanoutPc.call →
    s.statuses i = (outcome i).1 ∧ (s.workers i).response = (outcome i).2

/-- The invariant of the accumulator when the additions do not overlap: `r` is the 64-bit sum
of the reply slots added so far, and a worker inside `r += response.value()` has read the
current `r`. -/
structure SerialInv (outcome : Nat → Status × Int64Value) (n : Nat) (s : FanoutState) :
    Prop where
  sum : s.r = wrapInt64 (Fanout.addedSum outcome n s)
  fresh : ∀ i, i < n → (s.workers i).pc = FanoutPc.store → (s.workers i).loaded = s.r

/-- The mathematical sum of the value fields of a list of replies. -/
def valueSum (responses : List Int64Value) : Int :=
  (responses.map Int64Value.value).sum

/-- The outcomes of a fan-out over `N` shards given as a vector: shard `i` yields `outcomes[i]`
(a shard beyond the vector yields `OK` and an untouched reply slot). -/
def outcomeOf (outcomes : List (Status × Int64Value)) (i : Nat) : Status × Int64Value :=
  outcomes.getD i (Status.OK, Int64Value.fresh)

/-- The replies of the shards whose call succeeded. -/
def okReplies (outcomes : List (Status × Int64Value)) : List Int64Value :=
  (outcomes.filter (fun o => o.1.ok)).map Prod.snd

/-! ## Records -/

/-- Modelled from the spec: the record type `Statement` of `model/rdf_model.h`, an RDF quad
with the four components subject, predicate, object and context; the dispatcher only hashes
and forwards it. -/
structure Statement where
  subject : String
  predicate : String
  object : String
  context : String
deriving DecidableEq, Repr

/-- Modelled from the spec: the record type `Namespace` of `model/rdf_model.h`, a binding of a
short name (`pfx`) to a URI; the dispatcher only forwards it. -/
structure Namespace where
  pfx : String
  uri : String
deriving DecidableEq, Repr

/-- Modelled from the spec: the message `UpdateRequest` of the service contract, a tagged
union carrying at most one of `stmt_added`, `stmt_removed`, `ns_added`, `ns_removed`;
`unset` is the record with no tag set. -/
inductive UpdateRequest where
  | unset
  | stmt_added (stmt : Statement)
  | stmt_removed (stmt : Statement)
  | ns_added (ns : Namespace)
  | ns_removed (ns : Namespace)
deriving DecidableEq, Repr

/-- Modelled from the spec: the message `UpdateResponse` of the service contract, with its four
counters; a fresh message holds zeros. -/
structure UpdateResponse where
  added_namespaces : Int
  removed_namespaces : Int
  added_statements : Int
  removed_statements : Int
deriving DecidableEq, Repr

/-- A default-constructed `UpdateResponse`. -/
def UpdateResponse.fresh : UpdateResponse := ⟨0, 0, 0, 0⟩

/-- The default-constructed `Statement` returned by an accessor whose field is not set. -/
def Statement.fresh : Statement := ⟨"", "", "", ""⟩

/-- The accessor `has_stmt_added()`. -/
def UpdateRequest.has_stmt_added : UpdateRequest → Bool
  | .stmt_added _ => true
  | _ => false

/-- The accessor `has_stmt_removed()`. -/
def UpdateRequest.has_stmt_removed : UpdateRequest → Bool
  | .stmt_removed _ => true
  | _ => false

/-- The accessor `has_ns_added()`. -/
def UpdateRequest.has_ns_added : UpdateRequest → Bool
  | .ns_added _ => true
  | _ => false

/-- The accessor `has_ns_removed()`. -/
def UpdateRequest.has_ns_removed : UpdateRequest → Bool
  | .ns_removed _ => true
  | _ => false

/-- The accessor `stmt_added()`: the carried statement, or a default one. -/
def UpdateRequest.get_stmt_added : UpdateRequest → Statement
  | .stmt_added s => s
  | _ => Statement.fresh

/-- The accessor `stmt_removed()`: the carried statement, or a default one. -/
def UpdateRequest.get_stmt_removed : UpdateRequest → Statement
  | .stmt_removed s => s
  | _ => Statement.fresh

/-! ## Shard streams of the write handlers -/

/-- The client-streaming call opened on one shard (`ClientWriter`): the records passed to
`Write` so far, in call order, and whether `WritesDone` and `Finish` have been called. -/
structure ClientWriter (α : Type) where
  written : List α
  writes_done : Bool
  finished : Bool
deriving DecidableEq, Repr

/-- A call that has just been opened. -/
def ClientWriter.opened {α : Type} : ClientWriter α := ⟨[], false, false⟩

/-- The call `w->Write(r)`. -/
def ClientWriter.Write {α : Type} (w : ClientWriter α) (r : α) : ClientWriter α :=
  { w with written := w.written ++ [r] }

/-- The call `w->WritesDone()`. -/
def ClientWriter.WritesDone {α : Type} (w : ClientWriter α) : ClientWriter α :=
  { w with writes_done := true }

/-- The call `w->Finish()`; the status it returns is dropped by the handlers. -/
def ClientWriter.Finish {α : Type} (w : ClientWriter α) : ClientWriter α :=
  { w with finished := true }

/-- The opening loop `for (int i=0; i<backends.size(); i++) writers.push_back(...)`. -/
def openWriters (α : Type) (backends : List String) : List (ClientWriter α) :=
  (List.range backends.length).map (fun _ => ClientWriter.opened)

/-- The closing loop `for (auto& w : writers) { w->WritesDone(); w->Finish(); }`. -/
def closeWriters {α : Type} (writers : List (ClientWriter α)) : List (ClientWriter α) :=
  writers.map (fun w => w.WritesDone.Finish)

/-- What the shards answer at `Finish()`: for the writers from index `i` on, the terminal
status and the content of the reply slot of each, shard `j` answering `shard j` on the records
written to it. -/
def terminal {α ρ : Type} (shard : Nat → List α → Status × ρ) :
    Nat → List (ClientWriter α) → List (Status × ρ)
  | _, [] => []
  | i, w :: ws => shard i w.written :: terminal shard (i + 1) ws

/-- The records written to shard `i`. -/
def writtenTo {α : Type} (writers : List (ClientWriter α)) (i : Nat) : List α :=
  match writers[i]? with
  | some w => w.written
  | none => []

/-- The broadcast `for (auto& w : writers) w->Write(r);`. -/
def writeToAll {α : Type} (writers : List (ClientWriter α)) (r : α) : List (ClientWriter α) :=
  writers.map (fun w => w.Write r)

/-- The routed write `size_t bucket = hash % backends.size(); writers[bucket]->Write(r);`.
There is no result when `backends.size()` is zero (division by zero) or when `bucket` is not an
index of `writers`. -/
def writeToBucket {α : Type} (hash : Nat) (backends : List String)
    (writers : List (ClientWriter α)) (r : α) : Option (List (ClientWriter α)) :=
  if backends.length = 0 then none
  else
    let bucket := hash % backends.length
    match writers[bucket]? with
    | none => none
    | some w => some (writers.set bucket (w.Write r))

/-- A read loop `while (reader->Read(&r)) { ... }` whose body may fail. -/
def readLoop {β σ : Type} (body : σ → β → Option σ) : List β → σ → Option σ
  | [], s => some s
  | r :: rest, s =>
    match body s r with
    | none => none
    | some s' => readLoop body rest s'

/-- What a write handler leaves behind: the returned status, the reply message, the shard
streams, and the terminal statuses of the shards. -/
structure Outcome (α ρ : Type) where
  status : Status
  result : ρ
  writers : List (ClientWriter α)
  terminal_statuses : List Status

/-! ## AddNamespaces -/

/-- Lines 83 to 99 of `AddNamespaces`: the shard streams after the opening loop, the read loop
broadcasting every namespace, and the closing loop. -/
def AddNamespaces.streams (backends : List String) (reader : List Namespace) :
    List (ClientWriter Namespace) :=
  closeWriters (reader.foldl writeToAll (openWriters Namespace backends))

/-- The handler `ShardingService::AddNamespaces`. The reply is `stats[0].value()`; there is no
result when `stats` has no slot `0`. The status is the constant `Status::OK`. -/
def AddNamespaces (shard : Nat → List Namespace → Status × Int64Value)
    (backends : List String) (reader : List Namespace) :
    Option (Outcome Namespace Int64Value) :=
  let writers := reader.foldl writeToAll (openWriters Namespace backends)
  let replies := terminal shard 0 writers
  let stats := replies.map Prod.snd
  match stats[0]? with
  | none => none
  | some s => some ⟨Status.OK, ⟨s.value⟩, closeWriters writers, replies.map Prod.fst⟩

/-! ## AddStatements -/

/-- The summing loop `for (auto& r : responses) result->set_value(result->value() + r.value())`. -/
def sumInto (result : Int64Value) (responses : List Int64Value) : Int64Value :=
  responses.foldl (fun acc r => ⟨wrapInt64 (acc.value + r.value)⟩) result

/-- The handler `ShardingService::AddStatements`. `stmt_hash` is `std::hash<Statement>`,
`result` is the reply message as handed to the handler. Every statement goes to the writer
`stmt_hash(stmt) % backends.size()`. The status is the constant `Status::OK`. -/
def AddStatements (stmt_hash : Statement → Nat)
    (shard : Nat → List Statement → Status × Int64Value)
    (backends : List String) (reader : List Statement) (result : Int64Value) :
    Option (Outcome Statement Int64Value) :=
  match readLoop (fun writers stmt => writeToBucket (stmt_hash stmt) backends writers stmt)
      reader (openWriters Statement backends) with
  | none => none
  | some writers =>
    let replies := terminal shard 0 writers
    let responses := replies.map Prod.snd
    some ⟨Status.OK, sumInto result responses, closeWriters writers, replies.map Prod.fst⟩

/-! ## Update -/

/-- The body of the read loop of `Update`: three tests in sequence, on `has_stmt_added()`, on
`has_stmt_removed()`, and on `has_ns_added() || has_ns_removed()`. -/
def Update.route (stmt_hash : Statement → Nat) (backends : List String)
    (writers : List (ClientWriter UpdateRequest)) (req : UpdateRequest) :
    Option (List (ClientWriter UpdateRequest)) :=
  let afterAdded :=
    if req.has_stmt_added then
      writeToBucket (stmt_hash req.get_stmt_added) backends writers req
    else some writers
  match afterAdded with
  | none => none
  | some writers1 =>
    let afterRemoved :=
      if req.has_stmt_removed then
        writeToBucket (stmt_hash req.get_stmt_removed) backends writers1 req
      else some writers1
    match afterRemoved with
    | none => none
    | some writers2 =>
      if req.has_ns_added || req.has_ns_removed then some (writeToAll writers2 req)
      else some writers2

/-- One turn of the summing loop of `Update`: each of the four counters of `r` is added to the
counter of `result`. -/
def addCounters (result r : UpdateResponse) : UpdateResponse :=
  { added_namespaces := wrapInt64 (result.added_namespaces + r.added_namespaces)
    removed_namespaces := wrapInt64 (result.removed_namespaces + r.removed_namespaces)
    added_statements := wrapInt64 (result.added_statements + r.added_statements)
    removed_statements := wrapInt64 (result.removed_statements + r.removed_statements) }

/-- The handler `ShardingService::Update`. `result` is the reply message as handed to the
handler. The status is the constant `Status::OK`. -/
def Update (stmt_hash : Statement → Nat)
    (shard : Nat → List UpdateRequest → Status × UpdateResponse)
    (backends : List String) (reader : List UpdateRequest) (result : UpdateResponse) :
    Option (Outcome UpdateRequest UpdateResponse) :=
  match readLoop (Update.route stmt_hash backends) reader
      (openWriters UpdateRequest backends) with
  | none => none
  | some writers =>
    let replies := terminal shard 0 writers
    let responses := replies.map Prod.snd
    some ⟨Status.OK, responses.foldl addCounters result, closeWriters writers,
      replies.map Prod.fst⟩

/-! ## The scalar handlers -/

/-- The handler `ShardingService::RemoveStatements`. -/
def RemoveStatements (stub : Nat → Statement → Status × Int64Value) (pattern : Statement)
    (backends : List String) (schedule : List Nat) : Option (Status × Int64Value) :=
  Fanout stub pattern backends schedule

/-- The handler `ShardingService::Clear`; a context request is a list of context names. -/
def Clear (stub : Nat → List String → Status × Int64Value) (contexts : List String)
    (backends : List String) (schedule : List Nat) : Option (Status × Int64Value) :=
  Fanout stub contexts backends schedule

/-- The handler `ShardingService::Size`; a context request is a list of context names. -/
def Size (stub : Nat → List String → Status × Int64Value) (contexts : List String)
    (backends : List String) (schedule : List Nat) : Option (Status × Int64Value) :=
  Fanout stub contexts backends schedule

/-! ## GetStatements: the merging reader

The handler starts one worker thread per shard and joins them. The workers are modelled as a
transition system: a schedule is the sequence in which the threads are given a turn, and a
turn of a thread executes its next statement when it can. -/

/-- Where a worker of `GetStatements` stands in its loop
`while (reader->Read(&stmt)) { lock_guard guard(mutex); result->Write(stmt); count++; }`. -/
inductive Pc where
  /-- At the loop test `reader->Read(&stmt)`. -/
  | read
  /-- At `std::lock_guard<std::mutex> guard(mutex)`, waiting for the mutex. -/
  | lock
  /-- Holding the mutex, before the call `result->Write(stmt)`. -/
  | write
  /-- Inside the call `result->Write(stmt)`. -/
  | writing
  /-- At `count++`. -/
  | count
  /-- At the end of the loop body, where `guard` is destroyed. -/
  | unlock
  /-- Past the loop. -/
  | finished
deriving DecidableEq, Repr

/-- The locals of one worker: the records its shard stream has still to deliver, the buffer
`stmt`, the counter `count`, and its position. -/
structure Worker where
  reader : List Statement
  stmt : Statement
  count : Int
  pc : Pc

/-- The state shared by the workers of one `GetStatements` call: the workers by shard index,
the owner of `mutex` if it is held, and the records written to the client stream `result`,
each with the index of the worker that wrote it. -/
structure MergeState where
  workers : Nat → Worker
  mutex : Option Nat
  result : List (Nat × Statement)

/-- The state in which worker `i` has become `w`. -/
def MergeState.setWorker (s : MergeState) (i : Nat) (w : Worker) : MergeState :=
  { s with workers := Function.update s.workers i w }

/-- The state once the threads have been started: worker `i` has opened the stream of shard
`i` for the pattern, `shard i pattern` being the records that this stream delivers. -/
def GetStatements.init (shard : Nat → Statement → List Statement) (pattern : Statement) :
    MergeState :=
  ⟨fun i => ⟨shard i pattern, Statement.fresh, 0, Pc.read⟩, none, []⟩

/-- One turn of worker `i` among `n` workers. There is no successor state when `i` is not a
worker, when the worker is past its loop, or when it waits for a mutex that is held. -/
def GetStatements.step (n : Nat) (s : MergeState) (i : Nat) : Option MergeState :=
  if i < n then
    match (s.workers i).pc with
    | Pc.read =>
      match (s.workers i).reader with
      | [] => some (s.setWorker i { s.workers i with pc := Pc.finished })
      | r :: rest =>
        some (s.setWorker i { s.workers i with reader := rest, stmt := r, pc := Pc.lock })
    | Pc.lock =>
      match s.mutex with
      | none =>
        some ({ s with mutex := some i }.setWorker i { s.workers i with pc := Pc.write })
      | some _ => none
    | Pc.write => some (s.setWorker i { s.workers i with pc := Pc.writing })
    | Pc.writing =>
      some ({ s with result := s.result ++ [(i, (s.workers i).stmt)] }.setWorker i
        { s.workers i with pc := Pc.count })
    | Pc.count =>
      some (s.setWorker i
        { s.workers i with count := wrapInt64 ((s.workers i).count + 1), pc := Pc.unlock })
    | Pc.unlock =>
      some ({ s with mutex := none }.setWorker i { s.workers i with pc := Pc.read })
    | Pc.finished => none
  else none

/-- The state after the threads have been given their turns in the order of `schedule`; a turn
given to a thread that cannot move changes nothing. -/
def GetStatements.run (n : Nat) (s : MergeState) (schedule : List Nat) : MergeState :=
  schedule.foldl (fun s i => (GetStatements.step n s i).getD s) s

/-- The number of turns of `schedule` in which a thread did move. -/
def GetStatements.moves (n : Nat) : MergeState → List Nat → Nat
  | _, [] => 0
  | s, i :: rest =>
    match GetStatements.step n s i with
    | none => GetStatements.moves n s rest
    | some s' => GetStatements.moves n s' rest + 1

/-- Whether all `n` workers are past their loop, so that every `join` returns. -/
def allFinished (n : Nat) (s : MergeState) : Bool :=
  (List.range n).all (fun i => (s.workers i).pc == Pc.finished)

/-- The handler `ShardingService::GetStatements` under a schedule of its worker threads: once
all the threads are joined, it returns `Status::OK`, and the client has received the records
of `result`; there is no return while a thread is still in its loop. -/
def GetStatements (shard : Nat → Statement → List Statement) (pattern : Statement)
    (backends : List String) (schedule : List Nat) : Option (Status × List Statement) :=
  let s := GetStatements.run backends.length (GetStatements.init shard pattern) schedule
  if allFinished backends.length s then some (Status.OK, s.result.map Prod.snd) else none

/-- The records of the client stream that were written by worker `i`, in writing order. -/
def recordsFrom (result : List (Nat × Statement)) (i : Nat) : List Statement :=
  (result.filter (fun e => decide (e.1 = i))).map Prod.snd

/-- The record that a worker has read and not yet written. -/
def Worker.pending (w : Worker) : List Statement :=
  match w.pc with
  | Pc.lock => [w.stmt]
  | Pc.write => [w.stmt]
  | Pc.writing => [w.stmt]
  | _ => []

/-- The positions at which a worker holds the mutex. -/
def Pc.holdsMutex : Pc → Bool
  | Pc.write => true
  | Pc.writing => true
  | Pc.count => true
  | Pc.unlock => true
  | _ => false

/-- The statements a worker has still to execute: six for each record to come, one for the
last loop test, and those that remain of the current turn of the loop. -/
def Worker.remaining (w : Worker) : Nat :=
  match w.pc with
  | Pc.read => 6 * w.reader.length + 1
  | Pc.lock => 6 * w.reader.length + 6
  | Pc.write => 6 * w.reader.length + 5
  | Pc.writing => 6 * w.reader.length + 4
  | Pc.count => 6 * w.reader.length + 3
  | Pc.unlock => 6 * w.reader.length + 2
  | Pc.finished => 0

/-- The statements that the `n` workers have still to execute. -/
def remainingSteps (n : Nat) (s : MergeState) : Nat :=
  ((List.range n).map (fun i => (s.workers i).remaining)).sum

/-- The invariant of the merge over the streams `stream`: what worker `i` has written, then
what it holds in its buffer, then what its stream has still to deliver, is the stream of shard
`i`; a worker is in the guarded part of its loop exactly when it owns the mutex; the owner of
the mutex and the writer of every record are workers; a worker past its loop has read its
stream to the end. -/
structure MergeInv (n : Nat) (stream : Nat → List Statement) (s : MergeState) : Prop where
  records : ∀ i, i < n →
    recordsFrom s.result i ++ (s.workers i).pending ++ (s.workers i).reader = stream i
  owner : ∀ i, i < n → ((s.workers i).pc.holdsMutex = true ↔ s.mutex = some i)
  owner_lt : ∀ j, s.mutex = some j → j < n
  tags : ∀ e ∈ s.result, e.1 < n
  drained : ∀ i, i < n → (s.workers i).pc = Pc.finished → (s.workers i).reader = []

/-! ## Routing, as the specification words it -/

/-- The bucket of a statement over `n` shards: `hash(S) mod n`. -/
def bucketOf (stmt_hash : Statement → Nat) (n : Nat) (stmt : Statement) : Nat :=
  stmt_hash stmt % n

/-- Whether the specification sends an update record to shard `i` of `n`: a namespace record
goes to every shard, a statement record to the bucket of its statement, a record with no tag
nowhere. -/
def updateGoesTo (stmt_hash : Statement → Nat) (n i : Nat) : UpdateRequest → Bool
  | .unset => false
  | .stmt_added stmt => decide (bucketOf stmt_hash n stmt = i)
  | .stmt_removed stmt => decide (bucketOf stmt_hash n stmt = i)
  | .ns_added _ => true
  | .ns_removed _ => true

/-- The sum over the shards `0`, ..., `n - 1` of a per-shard count. -/
def sumOverShards (n : Nat) (count : Nat → Int) : Int :=
  ((List.range n).map count).sum

/-- A shard environment in which shard `1` fails with `UNAVAILABLE` and leaves its reply slot
untouched: every other shard succeeds and reports the number of records written to it. -/
def secondShardFails {α : Type} (i : Nat) (written : List α) : Status × Int64Value :=
  if i = 1 then (⟨14, "unavailable"⟩, Int64Value.fresh) else (Status.OK, ⟨written.length⟩)

/-- The same environment for `Update`: every shard but shard `1` reports the number of records
written to it as added statements. -/
def secondShardFailsUpdate (i : Nat) (written : List UpdateRequest) : Status × UpdateResponse :=
  if i = 1 then (⟨14, "unavailable"⟩, UpdateResponse.fresh)
  else (Status.OK, ⟨0, 0, written.length, 0⟩)

/-! # Theorems -/

/-! ### Lemmas on 64-bit accumulation -/

theorem wrapInt64_add_wrap (a b : Int) : wrapInt64 (wrapInt64 a + b) = wrapInt64 (a + b) := by
  unfold wrapInt64
  omega

theorem wrapInt64_of_inInt64 {x : Int} (h : inInt64 x) : wrapInt64 x = x := by
  unfold inInt64 at h
  unfold wrapInt64
  omega

theorem inInt64_wrapInt64 (x : Int) : inInt64 (wrapInt64 x) := by
  unfold inInt64 wrapInt64
  omega

/-- A sum over the workers after one worker has changed. -/
theorem sum_range_update_at {W M : Type} [AddCommMonoid M] (n i : Nat) (f : Nat → W) (w : W)
    (F : Nat → W → M) :
    (i < n → ((List.range n).map (fun j => F j (Function.update f i w j))).sum + F i (f i)
        = ((List.range n).map (fun j => F j (f j))).sum + F i w)
    ∧ (n ≤ i → ((List.range n).map (fun j => F j (Function.update f i w j))).sum
        = ((List.range n).map (fun j => F j (f j))).sum) := by
  have hle : ∀ m, m ≤ i → ((List.range m).map (fun j => F j (Function.update f i w j))).sum
      = ((List.range m).map (fun j => F j (f j))).sum := by
    intro m hm
    congr 1
    apply List.map_congr_left
    intro j hj
    have : j ≠ i := by have := List.mem_range.mp hj; omega
    simp [Function.update_noteq this]
  refine ⟨?_, hle n⟩
  intro h
  induction n with
  | zero => omega
  | succ m ih =>
    rw [List.range_succ, List.map_append, List.map_append, List.sum_append, List.sum_append]
    simp only [List.map_cons, List.map_nil, List.sum_cons, List.sum_nil, add_zero]
    by_cases him : i = m
    · subst him
      rw [hle i (Nat.le_refl _), Function.update_same]
      abel
    · have h1 := ih (by omega)
      rw [Function.update_noteq (fun e => him e.symm)]
      calc ((List.range m).map (fun j => F j (Function.update f i w j))).sum + F m (f m)
              + F i (f i)
          = (((List.range m).map (fun j => F j (Function.update f i w j))).sum + F i (f i))
              + F m (f m) := by abel
        _ = (((List.range m).map (fun j => F j (f j))).sum + F i w) + F m (f m) := by rw [h1]
        _ = ((List.range m).map (fun j => F j (f j))).sum + F m (f m) + F i w := by abel

/-! ### The closing loop of Fanout -/

theorem firstNotOk_ok_iff (statuses : List Status) :
    (firstNotOk statuses).ok = true ↔ ∀ s ∈ statuses, s.ok = true := by
  induction statuses with
  | nil => simp [firstNotOk, Status.ok, Status.OK]
  | cons s rest ih =>
    by_cases hs : s.ok = true
    · simp [firstNotOk, hs, ih]
    · simp [firstNotOk, hs]

theorem firstNotOk_eq_OK (statuses : List Status) (h : ∀ s ∈ statuses, s.ok = true) :
    firstNotOk statuses = Status.OK := by
  induction statuses with
  | nil => rfl
  | cons s rest ih =>
    have hs : s.ok = true := h s (List.mem_cons_self _ _)
    simp only [firstNotOk, hs, Bool.not_true, Bool.false_eq_true, if_false]
    exact ih (fun t ht => h t (List.mem_cons_of_mem _ ht))

theorem firstNotOk_eq_getElem (statuses : List Status) (i : Nat) (hi : i < statuses.length)
    (hfail : statuses[i].ok = false)
    (hbefore : ∀ j (hj : j < statuses.length), j < i → statuses[j].ok = true) :
    firstNotOk statuses = statuses[i] := by
  induction statuses generalizing i with
  | nil => simp at hi
  | cons s rest ih =>
    cases i with
    | zero =>
      simp only [List.getElem_cons_zero] at hfail
      simp [firstNotOk, hfail]
    | succ k =>
      have hs : s.ok = true := hbefore 0 (by simp) (by omega)
      simp only [firstNotOk, hs, Bool.not_true, Bool.false_eq_true, if_false,
        List.getElem_cons_succ]
      simp only [List.getElem_cons_succ] at hfail
      apply ih k (by simpa using hi) hfail
      intro j hj hjk
      exact hbefore (j + 1) (by simpa using hj) (by omega)


theorem valueSum_okReplies (outcomes : List (Status × Int64Value))
    (h : ∀ o ∈ outcomes, o.1.ok = false → o.2.value = 0) :
    valueSum (okReplies outcomes) = valueSum (outcomes.map Prod.snd) := by
  induction outcomes with
  | nil => rfl
  | cons o rest ih =>
    have hrest := ih (fun p hp => h p (List.mem_cons_of_mem _ hp))
    unfold valueSum okReplies at hrest ⊢
    by_cases ho : o.1.ok = true
    · simp only [List.filter_cons, ho, if_true, List.map_cons, List.sum_cons]
      rw [hrest]
    · have h0 : o.2.value = 0 := h o (List.mem_cons_self _ _) (by simpa using ho)
      simp only [List.filter_cons, ho, Bool.false_eq_true, if_false, List.map_cons,
        List.sum_cons, h0, zero_add]
      rw [hrest]

/-! ### The workers of Fanout -/

theorem fanout_init_inv (outcome : Nat → Status × Int64Value) (n : Nat) :
    FanoutInv outcome n Fanout.init := by
  refine ⟨?_⟩
  intro i _ h
  exact absurd rfl h

theorem fanout_init_serialInv (outcome : Nat → Status × Int64Value) (n : Nat) :
    SerialInv outcome n Fanout.init := by
  refine ⟨?_, ?_⟩
  · have h0 : Fanout.addedSum outcome n Fanout.init = 0 := by
      unfold Fanout.addedSum
      apply List.sum_eq_zero
      intro x hx
      obtain ⟨i, _, rfl⟩ := List.mem_map.mp hx
      simp [Fanout.init]
    rw [h0]
    rfl
  · intro i _ h
    simp [Fanout.init] at h

/-- Every turn of a worker of `Fanout` keeps the account of the calls made. -/
theorem fanout_step_inv {Request : Type} {ClientMethod : Nat → Request → Status × Int64Value}
    {request : Request} {n : Nat} {s s' : FanoutState} {i : Nat}
    (hinv : FanoutInv (fun k => ClientMethod k request) n s)
    (h : Fanout.step ClientMethod request n s i = some s') :
    FanoutInv (fun k => ClientMethod k request) n s' := by
  by_cases hi : i < n
  swap
  · simp [Fanout.step, hi] at h
  cases hpc : (s.workers i).pc with
  | call =>
    simp only [Fanout.step, hi, if_true, hpc, Option.some.injEq] at h
    subst h
    refine ⟨?_⟩
    intro j hj hjc
    by_cases hji : j = i
    · subst hji
      simp
    · simp only [Function.update_noteq hji] at hjc ⊢
      exact hinv.called j hj hjc
  | load =>
    simp only [Fanout.step, hi, if_true, hpc, Option.some.injEq] at h
    subst h
    refine ⟨?_⟩
    intro j hj hjc
    by_cases hji : j = i
    · subst hji
      simpa using hinv.called j hj (by rw [hpc]; simp)
    · simp only [Function.update_noteq hji] at hjc ⊢
      exact hinv.called j hj hjc
  | store =>
    simp only [Fanout.step, hi, if_true, hpc, Option.some.injEq] at h
    subst h
    refine ⟨?_⟩
    intro j hj hjc
    by_cases hji : j = i
    · subst hji
      simpa using hinv.called j hj (by rw [hpc]; simp)
    · simp only [Function.update_noteq hji] at hjc ⊢
      exact hinv.called j hj hjc
  | finished =>
    simp [Fanout.step, hi, hpc] at h

theorem fanout_exclusive_iff (n : Nat) (s : FanoutState) :
    Fanout.exclusive n s = true ↔ ∀ i, i < n → ∀ j, j < n →
      (s.workers i).pc = FanoutPc.store → (s.workers j).pc = FanoutPc.store → i = j := by
  simp [Fanout.exclusive]

/-- A turn taken while at most one worker is inside the addition keeps the account of `r`. -/
theorem fanout_step_serialInv {Request : Type}
    {ClientMethod : Nat → Request → Status × Int64Value}
    {request : Request} {n : Nat} {s s' : FanoutState} {i : Nat}
    (hinv : FanoutInv (fun k => ClientMethod k request) n s)
    (hser : SerialInv (fun k => ClientMethod k request) n s)
    (hex : Fanout.exclusive n s = true)
    (h : Fanout.step ClientMethod request n s i = some s') :
    SerialInv (fun k => ClientMethod k request) n s' := by
  by_cases hi : i < n
  swap
  · simp [Fanout.step, hi] at h
  have hsum := hser.sum
  cases hpc : (s.workers i).pc with
  | call =>
    simp only [Fanout.step, hi, if_true, hpc, Option.some.injEq] at h
    subst h
    refine ⟨?_, ?_⟩
    · have hupd := (sum_range_update_at n i s.workers
        { s.workers i with response := (ClientMethod i request).2, pc := FanoutPc.load }
        (fun k (w : FanoutWorker) =>
          if w.pc = FanoutPc.finished then (ClientMethod k request).2.value else 0)).1 hi
      simp only [hpc, if_false, add_zero, reduceCtorEq] at hupd
      show s.r = wrapInt64 (Fanout.addedSum _ n _)
      unfold Fanout.addedSum at hsum ⊢
      simp only [] at hsum ⊢
      rw [hupd]
      exact hsum
    · intro j hj hjs
      by_cases hji : j = i
      · subst hji
        simp at hjs
      · simp only [Function.update_noteq hji] at hjs ⊢
        exact hser.fresh j hj hjs
  | load =>
    simp only [Fanout.step, hi, if_true, hpc, Option.some.injEq] at h
    subst h
    refine ⟨?_, ?_⟩
    · have hupd := (sum_range_update_at n i s.workers
        { s.workers i with loaded := s.r, pc := FanoutPc.store }
        (fun k (w : FanoutWorker) =>
          if w.pc = FanoutPc.finished then (ClientMethod k request).2.value else 0)).1 hi
      simp only [hpc, if_false, add_zero, reduceCtorEq] at hupd
      show s.r = wrapInt64 (Fanout.addedSum _ n _)
      unfold Fanout.addedSum at hsum ⊢
      simp only [] at hsum ⊢
      rw [hupd]
      exact hsum
    · intro j hj hjs
      by_cases hji : j = i
      · subst hji
        simp
      · simp only [Function.update_noteq hji] at hjs ⊢
        exact hser.fresh j hj hjs
  | store =>
    simp only [Fanout.step, hi, if_true, hpc, Option.some.injEq] at h
    subst h
    have hresp := (hinv.called i hi (by rw [hpc]; simp)).2
    have hload := hser.fresh i hi hpc
    refine ⟨?_, ?_⟩
    · have hupd := (sum_range_update_at n i s.workers
        { s.workers i with pc := FanoutPc.finished }
        (fun k (w : FanoutWorker) =>
          if w.pc = FanoutPc.finished then (ClientMethod k request).2.value else 0)).1 hi
      simp only [hpc, if_false, if_true, add_zero, reduceCtorEq] at hupd
      show wrapInt64 ((s.workers i).loaded + (s.workers i).response.value)
        = wrapInt64 (Fanout.addedSum _ n _)
      unfold Fanout.addedSum at hsum ⊢
      simp only [] at hsum ⊢
      rw [hupd, hload, hresp, hsum, wrapInt64_add_wrap]
    · intro j hj hjs
      by_cases hji : j = i
      · subst hji
        simp at hjs
      · simp only [Function.update_noteq hji] at hjs
        exact absurd ((fanout_exclusive_iff n s).mp hex j hj i hi hjs hpc) hji
  | finished =>
    simp [Fanout.step, hi, hpc] at h

theorem fanout_run_inv {Request : Type} {ClientMethod : Nat → Request → Status × Int64Value}
    {request : Request} {n : Nat} (schedule : List Nat) {s : FanoutState}
    (hinv : FanoutInv (fun k => ClientMethod k request) n s) :
    FanoutInv (fun k => ClientMethod k request) n
      (Fanout.run ClientMethod request n s schedule) := by
  induction schedule generalizing s with
  | nil => exact hinv
  | cons i rest ih =>
    simp only [Fanout.run, List.foldl_cons]
    cases h : Fanout.step ClientMethod request n s i with
    | none => exact ih hinv
    | some s' => exact ih (fanout_step_inv hinv h)

theorem fanout_run_serialInv {Request : Type}
    {ClientMethod : Nat → Request → Status × Int64Value}
    {request : Request} {n : Nat} (schedule : List Nat) {s : FanoutState}
    (hinv : FanoutInv (fun k => ClientMethod k request) n s)
    (hser : SerialInv (fun k => ClientMethod k request) n s)
    (hserial : Fanout.serial ClientMethod request n s schedule = true) :
    SerialInv (fun k => ClientMethod k request) n
      (Fanout.run ClientMethod request n s schedule) := by
  induction schedule generalizing s with
  | nil => exact hser
  | cons i rest ih =>
    simp only [Fanout.serial, Bool.and_eq_true] at hserial
    simp only [Fanout.run, List.foldl_cons]
    cases h : Fanout.step ClientMethod request n s i with
    | none =>
      rw [h] at hserial
      exact ih hinv hser hserial.2
    | some s' =>
      rw [h] at hserial
      exact ih (fanout_step_inv hinv h) (fanout_step_serialInv hinv hser hserial.1 h)
        hserial.2

/-- A turn that moves a worker of `Fanout` changes that worker only and takes it one step
further. -/
theorem fanout_step_shape {Request : Type} {ClientMethod : Nat → Request → Status × Int64Value}
    {request : Request} {n : Nat} {s s' : FanoutState} {i : Nat}
    (h : Fanout.step ClientMethod request n s i = some s') :
    i < n ∧ (∃ w, s'.workers = Function.update s.workers i w
        ∧ w.remaining + 1 = (s.workers i).remaining
        ∧ (w.pc = FanoutPc.store → (s.workers i).pc = FanoutPc.load))
      ∧ ((s.workers i).pc = FanoutPc.store → (s'.workers i).pc = FanoutPc.finished) := by
  by_cases hi : i < n
  swap
  · simp [Fanout.step, hi] at h
  refine ⟨hi, ?_⟩
  cases hpc : (s.workers i).pc with
  | call =>
    simp only [Fanout.step, hi, if_true, hpc, Option.some.injEq] at h
    subst h
    exact ⟨⟨_, rfl, by simp [FanoutWorker.remaining, hpc], by simp⟩, by simp⟩
  | load =>
    simp only [Fanout.step, hi, if_true, hpc, Option.some.injEq] at h
    subst h
    exact ⟨⟨_, rfl, by simp [FanoutWorker.remaining, hpc], by simp⟩, by simp⟩
  | store =>
    simp only [Fanout.step, hi, if_true, hpc, Option.some.injEq] at h
    subst h
    exact ⟨⟨_, rfl, by simp [FanoutWorker.remaining, hpc], by simp⟩, by simp⟩
  | finished =>
    simp [Fanout.step, hi, hpc] at h

theorem fanout_step_remaining {Request : Type}
    {ClientMethod : Nat → Request → Status × Int64Value}
    {request : Request} {n : Nat} {s s' : FanoutState} {i : Nat}
    (h : Fanout.step ClientMethod request n s i = some s') :
    Fanout.remainingSteps n s' + 1 = Fanout.remainingSteps n s := by
  obtain ⟨hi, ⟨w, hw, hrem, -⟩, -⟩ := fanout_step_shape h
  unfold Fanout.remainingSteps
  rw [hw]
  have := (sum_range_update_at n i s.workers w
    (fun _ (w : FanoutWorker) => w.remaining)).1 hi
  simp only [] at this
  omega

theorem fanout_run_append {Request : Type} (ClientMethod : Nat → Request → Status × Int64Value)
    (request : Request) (n : Nat) (s : FanoutState) (xs ys : List Nat) :
    Fanout.run ClientMethod request n s (xs ++ ys)
      = Fanout.run ClientMethod request n (Fanout.run ClientMethod request n s xs) ys := by
  simp [Fanout.run, List.foldl_append]

theorem fanout_serial_append {Request : Type}
    (ClientMethod : Nat → Request → Status × Int64Value)
    (request : Request) (n : Nat) (s : FanoutState) (xs ys : List Nat)
    (hx : Fanout.serial ClientMethod request n s xs = true)
    (hy : Fanout.serial ClientMethod request n (Fanout.run ClientMethod request n s xs) ys
      = true) :
    Fanout.serial ClientMethod request n s (xs ++ ys) = true := by
  induction xs generalizing s with
  | nil => simpa [Fanout.run] using hy
  | cons i rest ih =>
    simp only [Fanout.serial, Bool.and_eq_true, List.cons_append] at hx ⊢
    refine ⟨hx.1, ih _ hx.2 ?_⟩
    simpa [Fanout.run] using hy

theorem fanout_exclusive_of_serial {Request : Type}
    (ClientMethod : Nat → Request → Status × Int64Value)
    (request : Request) (n : Nat) (s : FanoutState) (xs : List Nat)
    (hx : Fanout.serial ClientMethod request n s xs = true) :
    Fanout.exclusive n (Fanout.run ClientMethod request n s xs) = true := by
  induction xs generalizing s with
  | nil => simpa [Fanout.serial, Fanout.run] using hx
  | cons i rest ih =>
    simp only [Fanout.serial, Bool.and_eq_true] at hx
    simpa [Fanout.run] using ih _ hx.2

theorem fanout_joined_iff (n : Nat) (s : FanoutState) :
    Fanout.joined n s = true ↔ ∀ i, i < n → (s.workers i).pc = FanoutPc.finished := by
  simp [Fanout.joined, List.all_eq_true]

theorem fanoutWorker_remaining_eq_zero_iff (w : FanoutWorker) :
    w.remaining = 0 ↔ w.pc = FanoutPc.finished := by
  unfold FanoutWorker.remaining
  cases w.pc <;> simp

theorem fanout_joined_iff_remaining (n : Nat) (s : FanoutState) :
    Fanout.joined n s = true ↔ Fanout.remainingSteps n s = 0 := by
  rw [fanout_joined_iff]
  unfold Fanout.remainingSteps
  rw [List.sum_eq_zero_iff]
  constructor
  · intro h x hx
    obtain ⟨i, hi, rfl⟩ := List.mem_map.mp hx
    exact (fanoutWorker_remaining_eq_zero_iff _).mpr (h i (List.mem_range.mp hi))
  · intro h i hi
    apply (fanoutWorker_remaining_eq_zero_iff _).mp
    exact h _ (List.mem_map.mpr ⟨i, List.mem_range.mpr hi, rfl⟩)

/-- A worker of `Fanout` that is not finished can move: no worker ever waits. -/
theorem fanout_step_enabled {Request : Type} (ClientMethod : Nat → Request → Status × Int64Value)
    (request : Request) {n : Nat} (s : FanoutState) {i : Nat} (hi : i < n)
    (hpc : (s.workers i).pc ≠ FanoutPc.finished) :
    ∃ s', Fanout.step ClientMethod request n s i = some s' := by
  apply Option.isSome_iff_exists.mp
  cases h : (s.workers i).pc with
  | call => simp [Fanout.step, hi, h]
  | load => simp [Fanout.step, hi, h]
  | store => simp [Fanout.step, hi, h]
  | finished => exact absurd h hpc

theorem fanout_exists_unfinished {n : Nat} {s : FanoutState} (h : Fanout.joined n s = false) :
    ∃ i, i < n ∧ (s.workers i).pc ≠ FanoutPc.finished := by
  by_contra hcon
  push_neg at hcon
  have := (fanout_joined_iff n s).mpr hcon
  rw [h] at this
  cases this

/-- From a state in which at most one worker is inside the addition, the workers can be run
to the end without two additions ever overlapping. -/
theorem fanout_serial_completion {Request : Type}
    (ClientMethod : Nat → Request → Status × Int64Value) (request : Request) {n : Nat}
    (k : Nat) (s : FanoutState) (hex : Fanout.exclusive n s = true)
    (hk : Fanout.remainingSteps n s = k) :
    ∃ more, Fanout.serial ClientMethod request n s more = true
      ∧ Fanout.joined n (Fanout.run ClientMethod request n s more) = true := by
  induction k generalizing s with
  | zero => exact ⟨[], by simpa [Fanout.serial] using hex,
      (fanout_joined_iff_remaining n s).mpr hk⟩
  | succ k ih =>
    have hnot : Fanout.joined n s = false := by
      cases hf : Fanout.joined n s with
      | false => rfl
      | true =>
        have := (fanout_joined_iff_remaining n s).mp hf
        omega
    have hexs := (fanout_exclusive_iff n s).mp hex
    -- the worker to move: the one inside the addition if there is one
    obtain ⟨i, hi, hpc, hpref⟩ : ∃ i, i < n ∧ (s.workers i).pc ≠ FanoutPc.finished
        ∧ (∀ j, j < n → (s.workers j).pc = FanoutPc.store → j = i) := by
      by_cases hst : ∃ j, j < n ∧ (s.workers j).pc = FanoutPc.store
      · obtain ⟨j, hj, hjs⟩ := hst
        exact ⟨j, hj, by rw [hjs]; simp, fun l hl hls => hexs l hl j hj hls hjs⟩
      · push_neg at hst
        obtain ⟨i, hi, hpc⟩ := fanout_exists_unfinished hnot
        exact ⟨i, hi, hpc, fun j hj hjs => absurd hjs (hst j hj)⟩
    obtain ⟨s', hs'⟩ := fanout_step_enabled ClientMethod request s hi hpc
    obtain ⟨-, ⟨w, hw, -, hwst⟩, hfin⟩ := fanout_step_shape hs'
    have hex' : Fanout.exclusive n s' = true := by
      rw [fanout_exclusive_iff]
      have honly : ∀ j, j < n → (s'.workers j).pc = FanoutPc.store → j = i := by
        intro j hj hjs
        by_contra hji
        rw [hw, Function.update_noteq hji] at hjs
        exact hji (hpref j hj hjs)
      intro a ha b hb has hbs
      rw [honly a ha has, honly b hb hbs]
    have hrem := fanout_step_remaining hs'
    obtain ⟨more, hser, hjoin⟩ := ih s' hex' (by omega)
    refine ⟨i :: more, ?_, ?_⟩
    · simp only [Fanout.serial, Bool.and_eq_true, hs', Option.getD_some]
      exact ⟨hex, hser⟩
    · simpa [Fanout.run, List.foldl_cons, hs'] using hjoin

/-- When all the workers are finished, `statuses` holds the status of every call. -/
theorem fanout_statuses_of_joined {outcome : Nat → Status × Int64Value} {n : Nat}
    {s : FanoutState} (hinv : FanoutInv outcome n s) (hj : Fanout.joined n s = true) :
    (List.range n).map s.statuses = (List.range n).map (fun i => (outcome i).1) := by
  apply List.map_congr_left
  intro i hi
  have hi' := List.mem_range.mp hi
  have hpc := (fanout_joined_iff n s).mp hj i hi'
  exact (hinv.called i hi' (by rw [hpc]; simp)).1

/-- When all the workers are finished, every reply slot has been added. -/
theorem fanout_addedSum_of_joined (outcome : Nat → Status × Int64Value) {n : Nat}
    {s : FanoutState} (hj : Fanout.joined n s = true) :
    Fanout.addedSum outcome n s = valueSum (((List.range n).map outcome).map Prod.snd) := by
  unfold Fanout.addedSum valueSum
  rw [List.map_map, List.map_map]
  congr 1
  apply List.map_congr_left
  intro i hi
  have hpc := (fanout_joined_iff n s).mp hj i (List.mem_range.mp hi)
  simp [hpc]

/-! ## Scalar fan-out: the reply value and the status -/

/-- C1, as the code has it: under every schedule of the worker threads in which no two
additions to `r` overlap, the value stored by `Fanout` when it returns is the 64-bit sum of
the reply slots of all the shards, whatever the status of their call; it is the 64-bit sum
over the shards whose status is OK whenever the reply slot of every failed shard holds zero;
and every such schedule can be continued, without overlap, until `Fanout` returns. -/
theorem Fanout_value_sums_every_reply {Request : Type}
    (ClientMethod : Nat → Request → Status × Int64Value)
    (request : Request) (backends : List String) (schedule : List Nat)
    (hserial : Fanout.serial ClientMethod request backends.length Fanout.init schedule = true) :
    (∀ out, Fanout ClientMethod request backends schedule = some out →
      out.2.value = wrapInt64 (valueSum (((List.range backends.length).map
          (fun i => ClientMethod i request)).map Prod.snd))
      ∧ ((∀ i, i < backends.length → (ClientMethod i request).1.ok = false →
            (ClientMethod i request).2.value = 0) →
          out.2.value = wrapInt64 (valueSum (okReplies ((List.range backends.length).map
              (fun i => ClientMethod i request))))))
    ∧ (∃ more out,
        Fanout.serial ClientMethod request backends.length Fanout.init (schedule ++ more) = true
        ∧ Fanout ClientMethod request backends (schedule ++ more) = some out) := by
  have hinv := fanout_run_inv schedule
    (fanout_init_inv (fun k => ClientMethod k request) backends.length)
  have hser := fanout_run_serialInv schedule
    (fanout_init_inv (fun k => ClientMethod k request) backends.length)
    (fanout_init_serialInv (fun k => ClientMethod k request) backends.length) hserial
  constructor
  · intro out hout
    simp only [Fanout] at hout
    split at hout
    swap
    · cases hout
    rename_i hj
    cases hout
    have hval : (Fanout.run ClientMethod request backends.length Fanout.init schedule).r
        = wrapInt64 (valueSum (((List.range backends.length).map
            (fun i => ClientMethod i request)).map Prod.snd)) := by
      rw [hser.sum, fanout_addedSum_of_joined _ hj]
    refine ⟨hval, fun hzero => ?_⟩
    show (Fanout.run ClientMethod request backends.length Fanout.init schedule).r = _
    rw [hval, valueSum_okReplies]
    intro o ho hfail
    obtain ⟨i, hi, rfl⟩ := List.mem_map.mp ho
    exact hzero i (List.mem_range.mp hi) hfail
  · obtain ⟨more, hmore, hjoin⟩ := fanout_serial_completion ClientMethod request _ _
      (fanout_exclusive_of_serial _ _ _ _ _ hserial) rfl
    refine ⟨more, (firstNotOk ((List.range backends.length).map
      (Fanout.run ClientMethod request backends.length Fanout.init
        (schedule ++ more)).statuses),
      ⟨(Fanout.run ClientMethod request backends.length Fanout.init (schedule ++ more)).r⟩),
      fanout_serial_append _ _ _ _ _ _ hserial hmore, ?_⟩
    simp only [Fanout, fanout_run_append, hjoin, if_true]

/-- Witness for C1: the workers run one after the other; shards answering 10, a failure with
an untouched reply slot, and 5 give 15; shards answering 4, 0 and 7 give 11. -/
theorem Fanout_value_sums_every_reply_witness :
    (∃ out, Size (fun i _ => outcomeOf [(Status.OK, ⟨10⟩), (⟨14, "unavailable"⟩, ⟨0⟩),
        (Status.OK, ⟨5⟩)] i) [] ["shard0", "shard1", "shard2"] [0, 0, 0, 1, 1, 1, 2, 2, 2]
        = some out ∧ out.2.value = 15)
      ∧ (∃ out, RemoveStatements (fun i _ => outcomeOf [(Status.OK, ⟨4⟩), (Status.OK, ⟨0⟩),
        (Status.OK, ⟨7⟩)] i) Statement.fresh ["shard0", "shard1", "shard2"]
        [0, 0, 0, 1, 1, 1, 2, 2, 2] = some out ∧ out.2.value = 11) := by
  constructor
  · have h := (Fanout_value_sums_every_reply
      (fun i (_ : List String) => outcomeOf [(Status.OK, ⟨10⟩), (⟨14, "unavailable"⟩, ⟨0⟩),
        (Status.OK, ⟨5⟩)] i) [] ["shard0", "shard1", "shard2"] [0, 0, 0, 1, 1, 1, 2, 2, 2]
      (by decide)).1
    refine ⟨(⟨14, "unavailable"⟩, ⟨15⟩), by decide, ?_⟩
    exact ((h _ (by decide)).2 (by decide)).trans (by decide)
  · have h := (Fanout_value_sums_every_reply
      (fun i (_ : Statement) => outcomeOf [(Status.OK, ⟨4⟩), (Status.OK, ⟨0⟩),
        (Status.OK, ⟨7⟩)] i) Statement.fresh ["shard0", "shard1", "shard2"]
      [0, 0, 0, 1, 1, 1, 2, 2, 2] (by decide)).1
    refine ⟨(Status.OK, ⟨11⟩), by decide, ?_⟩
    exact ((h _ (by decide)).2 (by decide)).trans (by decide)

/-- C1, counterexample: three shards whose outcomes are 10 with OK, 3 with a failure and 5
with OK, the workers running one after the other: `Size` stores 18, while the sum over the
shards whose status is OK is 15. -/
theorem Fanout_value_counts_failed_reply :
    Fanout.serial (fun i (_ : List String) => outcomeOf [(Status.OK, ⟨10⟩),
        (⟨14, "unavailable"⟩, ⟨3⟩), (Status.OK, ⟨5⟩)] i) [] 3 Fanout.init
        [0, 0, 0, 1, 1, 1, 2, 2, 2] = true
      ∧ Size (fun i _ => outcomeOf [(Status.OK, ⟨10⟩), (⟨14, "unavailable"⟩, ⟨3⟩),
        (Status.OK, ⟨5⟩)] i) [] ["shard0", "shard1", "shard2"] [0, 0, 0, 1, 1, 1, 2, 2, 2]
        = some (⟨14, "unavailable"⟩, ⟨18⟩)
      ∧ wrapInt64 (valueSum (okReplies [(Status.OK, ⟨10⟩), (⟨14, "unavailable"⟩, ⟨3⟩),
        (Status.OK, ⟨5⟩)])) = 15 := by
  decide

/-- The additions to `r` are not synchronised: with two shards answering 4 and 7, both with
OK, under the schedule in which both workers read `r` before either writes it back, `Size`
stores 7. -/
theorem Fanout_overlapping_additions_lose_a_reply :
    Size (fun i _ => outcomeOf [(Status.OK, ⟨4⟩), (Status.OK, ⟨7⟩)] i) []
        ["shard0", "shard1"] [0, 1, 0, 1, 0, 1] = some (Status.OK, ⟨7⟩)
      ∧ Fanout.serial (fun i (_ : List String) => outcomeOf [(Status.OK, ⟨4⟩),
        (Status.OK, ⟨7⟩)] i) [] 2 Fanout.init [0, 1, 0, 1, 0, 1] = false := by
  decide

/-- C2: under every schedule of the worker threads, the status returned by `Fanout` is OK
exactly when the status of every shard is OK, and it is then `Status::OK`; otherwise it is the
status of the lowest-indexed shard whose status is not OK; and every schedule can be continued
until `Fanout` returns. -/
theorem Fanout_status_first_failure {Request : Type}
    (ClientMethod : Nat → Request → Status × Int64Value)
    (request : Request) (backends : List String) (schedule : List Nat) :
    (∀ out, Fanout ClientMethod request backends schedule = some out →
      (out.1.ok = true ↔ ∀ i, i < backends.length → (ClientMethod i request).1.ok = true)
      ∧ ((∀ i, i < backends.length → (ClientMethod i request).1.ok = true) →
          out.1 = Status.OK)
      ∧ (∀ i, i < backends.length → (ClientMethod i request).1.ok = false →
          (∀ j, j < i → (ClientMethod j request).1.ok = true) →
          out.1 = (ClientMethod i request).1))
    ∧ (∃ more out, Fanout ClientMethod request backends (schedule ++ more) = some out) := by
  have hinv := fanout_run_inv schedule
    (fanout_init_inv (fun k => ClientMethod k request) backends.length)
  have hmem : (∀ s ∈ (List.range backends.length).map (fun i => (ClientMethod i request).1),
        s.ok = true)
      ↔ ∀ i, i < backends.length → (ClientMethod i request).1.ok = true := by
    constructor
    · intro h i hi
      apply h
      simp only [List.mem_map, List.mem_range]
      exact ⟨i, hi, rfl⟩
    · intro h s hs
      simp only [List.mem_map, List.mem_range] at hs
      obtain ⟨i, hi, rfl⟩ := hs
      exact h i hi
  constructor
  · intro out hout
    simp only [Fanout] at hout
    split at hout
    swap
    · cases hout
    rename_i hj
    cases hout
    simp only []
    rw [fanout_statuses_of_joined hinv hj]
    refine ⟨?_, ?_, ?_⟩
    · rw [firstNotOk_ok_iff, hmem]
    · intro h
      exact firstNotOk_eq_OK _ (hmem.mpr h)
    · intro i hi hfail hbefore
      have hlen : i < ((List.range backends.length).map
          (fun i => (ClientMethod i request).1)).length := by simpa using hi
      rw [firstNotOk_eq_getElem _ i hlen]
      · simp
      · simpa using hfail
      · intro j hj hji
        simpa using hbefore j hji
  · have hall : ∀ (k : Nat) (s : FanoutState), Fanout.remainingSteps backends.length s = k →
        ∃ more, Fanout.joined backends.length
          (Fanout.run ClientMethod request backends.length s more) = true := by
      intro k
      induction k with
      | zero => intro s hk; exact ⟨[], (fanout_joined_iff_remaining _ s).mpr hk⟩
      | succ k ih =>
        intro s hk
        have hnot : Fanout.joined backends.length s = false := by
          cases hf : Fanout.joined backends.length s with
          | false => rfl
          | true =>
            have := (fanout_joined_iff_remaining _ s).mp hf
            omega
        obtain ⟨i, hi, hpc⟩ := fanout_exists_unfinished hnot
        obtain ⟨s', hs'⟩ := fanout_step_enabled ClientMethod request s hi hpc
        have hrem := fanout_step_remaining hs'
        obtain ⟨more, hjoin⟩ := ih s' (by omega)
        refine ⟨i :: more, ?_⟩
        simpa [Fanout.run, List.foldl_cons, hs'] using hjoin
    obtain ⟨more, hjoin⟩ := hall _
      (Fanout.run ClientMethod request backends.length Fanout.init schedule) rfl
    refine ⟨more, (firstNotOk ((List.range backends.length).map
      (Fanout.run ClientMethod request backends.length Fanout.init
        (schedule ++ more)).statuses),
      ⟨(Fanout.run ClientMethod request backends.length Fanout.init (schedule ++ more)).r⟩),
      ?_⟩
    simp only [Fanout, fanout_run_append, hjoin, if_true]

/-- Witness for C2: of three shards the second and the third fail, and the status of the
second is returned, here under a schedule in which the workers take turns; with three
successful shards the status is OK. -/
theorem Fanout_status_first_failure_witness :
    (∃ out, Size (fun i _ => outcomeOf [(Status.OK, ⟨10⟩), (⟨14, "unavailable"⟩, ⟨0⟩),
        (⟨4, "deadline"⟩, ⟨0⟩)] i) [] ["shard0", "shard1", "shard2"]
        [2, 1, 0, 2, 1, 0, 2, 1, 0] = some out ∧ out.1 = ⟨14, "unavailable"⟩)
      ∧ (∃ out, Size (fun i _ => outcomeOf [(Status.OK, ⟨4⟩), (Status.OK, ⟨0⟩),
        (Status.OK, ⟨7⟩)] i) [] ["shard0", "shard1", "shard2"]
        [2, 1, 0, 2, 1, 0, 2, 1, 0] = some out ∧ out.1 = Status.OK) := by
  constructor
  · have h := (Fanout_status_first_failure
      (fun i (_ : List String) => outcomeOf [(Status.OK, ⟨10⟩), (⟨14, "unavailable"⟩, ⟨0⟩),
        (⟨4, "deadline"⟩, ⟨0⟩)] i) [] ["shard0", "shard1", "shard2"]
      [2, 1, 0, 2, 1, 0, 2, 1, 0]).1
    obtain ⟨out, hout⟩ : ∃ out, Size (fun i _ => outcomeOf [(Status.OK, ⟨10⟩),
        (⟨14, "unavailable"⟩, ⟨0⟩), (⟨4, "deadline"⟩, ⟨0⟩)] i) []
        ["shard0", "shard1", "shard2"] [2, 1, 0, 2, 1, 0, 2, 1, 0] = some out :=
      Option.isSome_iff_exists.mp (by decide)
    exact ⟨out, hout, (h out hout).2.2 1 (by decide) (by decide) (by decide)⟩
  · have h := (Fanout_status_first_failure
      (fun i (_ : List String) => outcomeOf [(Status.OK, ⟨4⟩), (Status.OK, ⟨0⟩),
        (Status.OK, ⟨7⟩)] i) [] ["shard0", "shard1", "shard2"]
      [2, 1, 0, 2, 1, 0, 2, 1, 0]).1
    obtain ⟨out, hout⟩ : ∃ out, Size (fun i _ => outcomeOf [(Status.OK, ⟨4⟩),
        (Status.OK, ⟨0⟩), (Status.OK, ⟨7⟩)] i) []
        ["shard0", "shard1", "shard2"] [2, 1, 0, 2, 1, 0, 2, 1, 0] = some out :=
      Option.isSome_iff_exists.mp (by decide)
    exact ⟨out, hout, (h out hout).2.1 (by decide)⟩

/-! ## Shard streams: what each writer has received -/

theorem openWriters_length (α : Type) (backends : List String) :
    (openWriters α backends).length = backends.length := by
  simp [openWriters]

theorem openWriters_eq_replicate (α : Type) (backends : List String) :
    openWriters α backends = List.replicate backends.length ClientWriter.opened := by
  unfold openWriters
  induction backends.length with
  | zero => rfl
  | succ n ih => rw [List.range_succ, List.map_append, ih, List.replicate_succ']; rfl

theorem writtenTo_openWriters (α : Type) (backends : List String) (i : Nat) :
    writtenTo (openWriters α backends) i = [] := by
  unfold writtenTo
  rw [openWriters_eq_replicate, List.getElem?_replicate]
  split_ifs <;> rfl

theorem writtenTo_closeWriters {α : Type} (writers : List (ClientWriter α)) (i : Nat) :
    writtenTo (closeWriters writers) i = writtenTo writers i := by
  unfold writtenTo closeWriters
  rw [List.getElem?_map]
  cases writers[i]? <;> rfl

theorem closeWriters_length {α : Type} (writers : List (ClientWriter α)) :
    (closeWriters writers).length = writers.length := by
  simp [closeWriters]

theorem writtenTo_writeToAll {α : Type} (writers : List (ClientWriter α)) (r : α) (i : Nat)
    (hi : i < writers.length) :
    writtenTo (writeToAll writers r) i = writtenTo writers i ++ [r] := by
  unfold writtenTo writeToAll
  rw [List.getElem?_map, List.getElem?_eq_getElem hi]
  rfl

theorem writeToAll_length {α : Type} (writers : List (ClientWriter α)) (r : α) :
    (writeToAll writers r).length = writers.length := by
  simp [writeToAll]

theorem writeToBucket_spec {α : Type} (hash : Nat) (backends : List String)
    (writers : List (ClientWriter α)) (r : α) (hN : backends.length ≠ 0)
    (hlen : writers.length = backends.length) :
    ∃ ws, writeToBucket hash backends writers r = some ws ∧ ws.length = backends.length ∧
      ∀ i, i < backends.length →
        writtenTo ws i = writtenTo writers i
          ++ (if decide (hash % backends.length = i) = true then [r] else []) := by
  have hb : hash % backends.length < writers.length := by
    rw [hlen]; exact Nat.mod_lt _ (Nat.pos_of_ne_zero hN)
  refine ⟨writers.set (hash % backends.length) ((writers[hash % backends.length]).Write r),
    ?_, ?_, ?_⟩
  · simp only [writeToBucket, hN, if_false, List.getElem?_eq_getElem hb]
  · simpa using hlen
  · intro i hi
    unfold writtenTo
    rw [List.getElem?_set]
    by_cases hbi : hash % backends.length = i
    · subst hbi
      simp only [if_true, hb, List.getElem?_eq_getElem hb, decide_True]
      rfl
    · simp [hbi]

theorem writeToBucket_zero {α : Type} (hash : Nat) (backends : List String)
    (writers : List (ClientWriter α)) (r : α) (hN : backends.length = 0) :
    writeToBucket hash backends writers r = none := by
  simp [writeToBucket, hN]

/-- A read loop whose body appends each record to the writers selected by `p` leaves on
writer `i` the records selected by `p i`, in reading order. -/
theorem readLoop_routes {α : Type} (n : Nat) (p : Nat → α → Bool)
    (body : List (ClientWriter α) → α → Option (List (ClientWriter α)))
    (hbody : ∀ ws r, ws.length = n → ∃ ws', body ws r = some ws' ∧ ws'.length = n ∧
      ∀ i, i < n → writtenTo ws' i = writtenTo ws i ++ (if p i r = true then [r] else []))
    (reader : List α) (ws : List (ClientWriter α)) (hws : ws.length = n) :
    ∃ ws', readLoop body reader ws = some ws' ∧ ws'.length = n ∧
      ∀ i, i < n → writtenTo ws' i = writtenTo ws i ++ reader.filter (p i) := by
  induction reader generalizing ws with
  | nil => exact ⟨ws, rfl, hws, fun i _ => by simp⟩
  | cons r rest ih =>
    obtain ⟨ws1, h1, hlen1, hw1⟩ := hbody ws r hws
    obtain ⟨ws2, h2, hlen2, hw2⟩ := ih ws1 hlen1
    refine ⟨ws2, ?_, hlen2, ?_⟩
    · simp only [readLoop, h1, h2]
    · intro i hi
      rw [hw2 i hi, hw1 i hi, List.filter_cons]
      by_cases hp : p i r = true
      · simp [hp]
      · simp [hp]

/-- A read loop stops without result at a record on which its body has none. -/
theorem readLoop_none {β σ : Type} (body : σ → β → Option σ) (reader : List β) (r : β)
    (hr : r ∈ reader) (hbody : ∀ s, body s r = none) (s : σ) :
    readLoop body reader s = none := by
  induction reader generalizing s with
  | nil => simp at hr
  | cons x rest ih =>
    simp only [readLoop]
    cases hx : body s x with
    | none => rfl
    | some s' =>
      rcases List.mem_cons.mp hr with h | h
      · subst h
        rw [hbody s] at hx
        cases hx
      · exact ih h s'

theorem terminal_getElem? {α ρ : Type} (shard : Nat → List α → Status × ρ) (k : Nat)
    (writers : List (ClientWriter α)) (j : Nat) :
    (terminal shard k writers)[j]? = (writers[j]?).map (fun w => shard (k + j) w.written) := by
  induction writers generalizing k j with
  | nil => simp [terminal]
  | cons w ws ih =>
    cases j with
    | zero => simp [terminal]
    | succ j =>
      simp only [terminal, List.getElem?_cons_succ]
      rw [ih]
      congr 2
      funext w
      congr 1
      omega

/-- The terminal replies of the shards, listed by shard index. -/
theorem terminal_eq_map_range {α ρ : Type} (shard : Nat → List α → Status × ρ)
    (writers : List (ClientWriter α)) :
    terminal shard 0 writers
      = (List.range writers.length).map (fun i => shard i (writtenTo writers i)) := by
  apply List.ext_getElem?
  intro j
  rw [terminal_getElem?, List.getElem?_map]
  by_cases hj : j < writers.length
  · rw [List.getElem?_eq_getElem hj, List.getElem?_range hj]
    simp [writtenTo, List.getElem?_eq_getElem hj]
  · rw [List.getElem?_eq_none (by omega), List.getElem?_eq_none (by simpa using hj)]
    rfl

/-! ## AddStatements and Update: routing -/

theorem sum_map_ite_range (n k c : Nat) (hk : k < n) :
    ((List.range n).map (fun i => if k = i then c else 0)).sum = c := by
  induction n with
  | zero => omega
  | succ m ih =>
    rw [List.range_succ, List.map_append, List.sum_append]
    by_cases hkm : k = m
    · subst hkm
      have hz : ((List.range k).map (fun i => if k = i then c else 0)).sum = 0 := by
        apply List.sum_eq_zero
        intro x hx
        obtain ⟨i, hi, rfl⟩ := List.mem_map.mp hx
        have : i < k := List.mem_range.mp hi
        simp [show k ≠ i by omega]
      simp [hz]
    · rw [ih (by omega)]
      simp [hkm]

theorem count_filter_decide {α : Type} [DecidableEq α] (p : α → Bool) (a : α) (l : List α) :
    (l.filter p).count a = if p a = true then l.count a else 0 := by
  by_cases hp : p a = true
  · simp only [hp, if_true]
    exact List.count_filter hp
  · simp only [hp, Bool.false_eq_true, if_false]
    apply List.count_eq_zero.mpr
    intro hmem
    exact hp (List.mem_filter.mp hmem).2

/-- Shard logs that are the filters of the input by bucket form a partition of the input. -/
theorem routed_logs_perm {α : Type} [DecidableEq α] (n : Nat) (bucket : α → Nat)
    (reader : List α) (hb : ∀ a ∈ reader, bucket a < n) (log : Nat → List α)
    (hlog : ∀ i, i < n → log i = reader.filter (fun a => decide (bucket a = i))) :
    ((List.range n).map log).flatten.Perm reader := by
  rw [List.perm_iff_count]
  intro a
  rw [List.count_flatten, List.map_map]
  have hcongr : (List.range n).map (List.count a ∘ log)
      = (List.range n).map (fun i => if bucket a = i then reader.count a else 0) := by
    apply List.map_congr_left
    intro i hi
    simp only [Function.comp]
    rw [hlog i (List.mem_range.mp hi), count_filter_decide]
    simp
  rw [hcongr]
  by_cases ha : a ∈ reader
  · exact sum_map_ite_range n (bucket a) _ (hb a ha)
  · rw [List.count_eq_zero.mpr ha]
    simp

theorem AddStatements_streams (stmt_hash : Statement → Nat)
    (shard : Nat → List Statement → Status × Int64Value)
    (backends : List String) (reader : List Statement) (result : Int64Value)
    (hN : 1 ≤ backends.length) :
    ∃ ws, readLoop (fun writers stmt => writeToBucket (stmt_hash stmt) backends writers stmt)
          reader (openWriters Statement backends) = some ws
      ∧ ws.length = backends.length
      ∧ (∀ i, i < backends.length → writtenTo ws i
          = reader.filter (fun s => decide (bucketOf stmt_hash backends.length s = i)))
      ∧ AddStatements stmt_hash shard backends reader result
          = some ⟨Status.OK, sumInto result ((terminal shard 0 ws).map Prod.snd),
              closeWriters ws, (terminal shard 0 ws).map Prod.fst⟩ := by
  obtain ⟨ws, h, hlen, hw⟩ := readLoop_routes backends.length
    (fun i s => decide (bucketOf stmt_hash backends.length s = i))
    (fun writers stmt => writeToBucket (stmt_hash stmt) backends writers stmt)
    (fun ws r hws => writeToBucket_spec (stmt_hash r) backends ws r (by omega) hws)
    reader (openWriters Statement backends) (openWriters_length _ _)
  refine ⟨ws, h, hlen, ?_, ?_⟩
  · intro i hi
    rw [hw i hi, writtenTo_openWriters, List.nil_append]
  · simp only [AddStatements, h]

/-- C3: with at least one shard, `AddStatements` returns, and the records written to shard `i`
are the inbound statements whose hash is `i` modulo the shard count, in arrival order; every
occurrence of a statement is written to the shard of its bucket and to no other, and the
shard logs together are a rearrangement of the input. -/
theorem AddStatements_routes_by_hash (stmt_hash : Statement → Nat)
    (shard : Nat → List Statement → Status × Int64Value)
    (backends : List String) (reader : List Statement) (result : Int64Value)
    (hN : 1 ≤ backends.length) :
    ∃ out, AddStatements stmt_hash shard backends reader result = some out
      ∧ out.writers.length = backends.length
      ∧ (∀ i, i < backends.length → writtenTo out.writers i
          = reader.filter (fun s => decide (stmt_hash s % backends.length = i)))
      ∧ (∀ s i, i < backends.length → (writtenTo out.writers i).count s
          = if stmt_hash s % backends.length = i then reader.count s else 0)
      ∧ ((List.range backends.length).map (writtenTo out.writers)).flatten.Perm reader := by
  obtain ⟨ws, -, hlen, hw, hout⟩ := AddStatements_streams stmt_hash shard backends reader result hN
  have hlog : ∀ i, i < backends.length → writtenTo (closeWriters ws) i
      = reader.filter (fun s => decide (stmt_hash s % backends.length = i)) := by
    intro i hi
    rw [writtenTo_closeWriters, hw i hi]
    rfl
  refine ⟨_, hout, ?_, hlog, ?_, ?_⟩
  · simpa [closeWriters_length] using hlen
  · intro s i hi
    show (writtenTo (closeWriters ws) i).count s = _
    rw [hlog i hi, count_filter_decide]
    simp
  · exact routed_logs_perm backends.length (fun s => stmt_hash s % backends.length) reader
      (fun s _ => Nat.mod_lt _ hN) _ hlog

/-- Witness for C3: three statements over two shards, hashed by the length of the subject. -/
theorem AddStatements_routes_by_hash_witness :
    ∃ out, AddStatements (fun s => s.subject.length) (fun _ l => (Status.OK, ⟨l.length⟩))
        ["shard0", "shard1"]
        [⟨"a", "p", "o", "g"⟩, ⟨"", "p", "o", "g"⟩, ⟨"abc", "p", "o", "g"⟩] Int64Value.fresh
        = some out
      ∧ writtenTo out.writers 0 = [⟨"", "p", "o", "g"⟩]
      ∧ writtenTo out.writers 1 = [⟨"a", "p", "o", "g"⟩, ⟨"abc", "p", "o", "g"⟩] := by
  obtain ⟨out, h, -, hw, -, -⟩ := AddStatements_routes_by_hash (fun s => s.subject.length)
    (fun _ l => (Status.OK, ⟨l.length⟩)) ["shard0", "shard1"]
    [⟨"a", "p", "o", "g"⟩, ⟨"", "p", "o", "g"⟩, ⟨"abc", "p", "o", "g"⟩] Int64Value.fresh
    (by decide)
  refine ⟨out, h, ?_, ?_⟩
  · rw [hw 0 (by decide)]; decide
  · rw [hw 1 (by decide)]; decide

theorem Update_route_spec (stmt_hash : Statement → Nat) (backends : List String)
    (writers : List (ClientWriter UpdateRequest)) (req : UpdateRequest)
    (hN : backends.length ≠ 0) (hlen : writers.length = backends.length) :
    ∃ ws, Update.route stmt_hash backends writers req = some ws
      ∧ ws.length = backends.length
      ∧ ∀ i, i < backends.length → writtenTo ws i = writtenTo writers i
          ++ (if updateGoesTo stmt_hash backends.length i req = true then [req] else []) := by
  cases req with
  | unset =>
    refine ⟨writers, ?_, hlen, ?_⟩
    · simp [Update.route, UpdateRequest.has_stmt_added, UpdateRequest.has_stmt_removed,
        UpdateRequest.has_ns_added, UpdateRequest.has_ns_removed]
    · intro i _
      simp [updateGoesTo]
  | stmt_added s =>
    obtain ⟨ws, h, hl, hw⟩ := writeToBucket_spec (stmt_hash s) backends writers
      (UpdateRequest.stmt_added s) hN hlen
    refine ⟨ws, ?_, hl, ?_⟩
    · simp [Update.route, UpdateRequest.has_stmt_added, UpdateRequest.has_stmt_removed,
        UpdateRequest.has_ns_added, UpdateRequest.has_ns_removed,
        UpdateRequest.get_stmt_added, h]
    · intro i hi
      rw [hw i hi]
      rfl
  | stmt_removed s =>
    obtain ⟨ws, h, hl, hw⟩ := writeToBucket_spec (stmt_hash s) backends writers
      (UpdateRequest.stmt_removed s) hN hlen
    refine ⟨ws, ?_, hl, ?_⟩
    · simp [Update.route, UpdateRequest.has_stmt_added, UpdateRequest.has_stmt_removed,
        UpdateRequest.has_ns_added, UpdateRequest.has_ns_removed,
        UpdateRequest.get_stmt_removed, h]
    · intro i hi
      rw [hw i hi]
      rfl
  | ns_added n =>
    refine ⟨writeToAll writers (UpdateRequest.ns_added n), ?_, ?_, ?_⟩
    · simp [Update.route, UpdateRequest.has_stmt_added, UpdateRequest.has_stmt_removed,
        UpdateRequest.has_ns_added]
    · rw [writeToAll_length, hlen]
    · intro i hi
      rw [writtenTo_writeToAll _ _ _ (by omega)]
      simp [updateGoesTo]
  | ns_removed n =>
    refine ⟨writeToAll writers (UpdateRequest.ns_removed n), ?_, ?_, ?_⟩
    · simp [Update.route, UpdateRequest.has_stmt_added, UpdateRequest.has_stmt_removed,
        UpdateRequest.has_ns_added, UpdateRequest.has_ns_removed]
    · rw [writeToAll_length, hlen]
    · intro i hi
      rw [writtenTo_writeToAll _ _ _ (by omega)]
      simp [updateGoesTo]

theorem Update_streams (stmt_hash : Statement → Nat)
    (shard : Nat → List UpdateRequest → Status × UpdateResponse)
    (backends : List String) (reader : List UpdateRequest) (result : UpdateResponse)
    (hN : 1 ≤ backends.length) :
    ∃ ws, readLoop (Update.route stmt_hash backends) reader (openWriters UpdateRequest backends)
          = some ws
      ∧ ws.length = backends.length
      ∧ (∀ i, i < backends.length → writtenTo ws i
          = reader.filter (updateGoesTo stmt_hash backends.length i))
      ∧ Update stmt_hash shard backends reader result
          = some ⟨Status.OK, ((terminal shard 0 ws).map Prod.snd).foldl addCounters result,
              closeWriters ws, (terminal shard 0 ws).map Prod.fst⟩ := by
  obtain ⟨ws, h, hlen, hw⟩ := readLoop_routes backends.length
    (updateGoesTo stmt_hash backends.length) (Update.route stmt_hash backends)
    (fun ws r hws => Update_route_spec stmt_hash backends ws r (by omega) hws)
    reader (openWriters UpdateRequest backends) (openWriters_length _ _)
  refine ⟨ws, h, hlen, ?_, ?_⟩
  · intro i hi
    rw [hw i hi, writtenTo_openWriters, List.nil_append]
  · simp only [Update, h]

/-- C4: with at least one shard, `Update` returns, and the records written to shard `i` are,
in arrival order, the inbound records that are `ns_added` or `ns_removed` or that carry a
statement, added or removed, whose hash is `i` modulo the shard count; a record with no tag
set is written to no shard. -/
theorem Update_routes_by_tag (stmt_hash : Statement → Nat)
    (shard : Nat → List UpdateRequest → Status × UpdateResponse)
    (backends : List String) (reader : List UpdateRequest) (result : UpdateResponse)
    (hN : 1 ≤ backends.length) :
    ∃ out, Update stmt_hash shard backends reader result = some out
      ∧ out.writers.length = backends.length
      ∧ (∀ i, i < backends.length → writtenTo out.writers i
          = reader.filter (updateGoesTo stmt_hash backends.length i))
      ∧ (∀ i, i < backends.length → UpdateRequest.unset ∉ writtenTo out.writers i) := by
  obtain ⟨ws, -, hlen, hw, hout⟩ := Update_streams stmt_hash shard backends reader result hN
  have hlog : ∀ i, i < backends.length → writtenTo (closeWriters ws) i
      = reader.filter (updateGoesTo stmt_hash backends.length i) := by
    intro i hi
    rw [writtenTo_closeWriters, hw i hi]
  refine ⟨_, hout, ?_, hlog, ?_⟩
  · simpa [closeWriters_length] using hlen
  · intro i hi hmem
    have hmem' : UpdateRequest.unset ∈ writtenTo (closeWriters ws) i := hmem
    rw [hlog i hi] at hmem'
    have := (List.mem_filter.mp hmem').2
    simp [updateGoesTo] at this

/-- Witness for C4: two shards, the stream `ns_added(X), stmt_added(S1), stmt_removed(S2),
ns_removed(Y)` with `S1` hashed to 0 and `S2` hashed to 1. -/
theorem Update_routes_by_tag_witness :
    ∃ out, Update (fun s => s.subject.length) (fun _ _ => (Status.OK, UpdateResponse.fresh))
        ["shard0", "shard1"]
        [.ns_added ⟨"x", "http://x/"⟩, .stmt_added ⟨"", "p", "o", "g"⟩,
          .stmt_removed ⟨"a", "p", "o", "g"⟩, .ns_removed ⟨"y", "http://y/"⟩]
        UpdateResponse.fresh = some out
      ∧ writtenTo out.writers 0 = [.ns_added ⟨"x", "http://x/"⟩,
          .stmt_added ⟨"", "p", "o", "g"⟩, .ns_removed ⟨"y", "http://y/"⟩]
      ∧ writtenTo out.writers 1 = [.ns_added ⟨"x", "http://x/"⟩,
          .stmt_removed ⟨"a", "p", "o", "g"⟩, .ns_removed ⟨"y", "http://y/"⟩] := by
  obtain ⟨out, h, -, hw, -⟩ := Update_routes_by_tag (fun s => s.subject.length)
    (fun _ _ => (Status.OK, UpdateResponse.fresh)) ["shard0", "shard1"]
    [.ns_added ⟨"x", "http://x/"⟩, .stmt_added ⟨"", "p", "o", "g"⟩,
      .stmt_removed ⟨"a", "p", "o", "g"⟩, .ns_removed ⟨"y", "http://y/"⟩]
    UpdateResponse.fresh (by decide)
  refine ⟨out, h, ?_, ?_⟩
  · rw [hw 0 (by decide)]; decide
  · rw [hw 1 (by decide)]; decide

/-! ## AddNamespaces: broadcast and reply -/

theorem foldl_writeToAll {α : Type} (reader : List α) (writers : List (ClientWriter α)) :
    reader.foldl writeToAll writers
      = writers.map (fun w => { w with written := w.written ++ reader }) := by
  induction reader generalizing writers with
  | nil => simp
  | cons r rest ih =>
    rw [List.foldl_cons, ih]
    simp [writeToAll, ClientWriter.Write, List.append_assoc]

theorem AddNamespaces_streams_eq (backends : List String) (reader : List Namespace) :
    AddNamespaces.streams backends reader
      = List.replicate backends.length ⟨reader, true, true⟩ := by
  unfold AddNamespaces.streams closeWriters
  rw [foldl_writeToAll, openWriters_eq_replicate]
  simp [ClientWriter.opened, ClientWriter.WritesDone, ClientWriter.Finish]

theorem AddNamespaces_eq (shard : Nat → List Namespace → Status × Int64Value)
    (backends : List String) (reader : List Namespace) (hN : 1 ≤ backends.length) :
    AddNamespaces shard backends reader
      = some ⟨Status.OK, ⟨(shard 0 reader).2.value⟩, AddNamespaces.streams backends reader,
          (List.range backends.length).map (fun i => (shard i reader).1)⟩ := by
  have hws : reader.foldl writeToAll (openWriters Namespace backends)
      = List.replicate backends.length ⟨reader, false, false⟩ := by
    rw [foldl_writeToAll, openWriters_eq_replicate]
    simp [ClientWriter.opened]
  have hw : ∀ i, i < backends.length →
      writtenTo (List.replicate backends.length (⟨reader, false, false⟩ : ClientWriter Namespace)) i
        = reader := by
    intro i hi
    simp [writtenTo, List.getElem?_replicate, hi]
  have hterm : terminal shard 0 (reader.foldl writeToAll (openWriters Namespace backends))
      = (List.range backends.length).map (fun i => shard i reader) := by
    rw [terminal_eq_map_range, hws, List.length_replicate]
    apply List.map_congr_left
    intro i hi
    rw [hw i (List.mem_range.mp hi)]
  unfold AddNamespaces
  simp only [hterm, List.map_map]
  have h0 : ((List.range backends.length).map (Prod.snd ∘ fun i => shard i reader))[0]?
      = some (shard 0 reader).2 := by
    rw [List.getElem?_map, List.getElem?_range (by omega)]
    rfl
  rw [h0]
  rfl

/-- C5: after the loops of `AddNamespaces` there is one stream per shard, and each one has
received the inbound namespaces, each once, in arrival order, and has been closed; with an empty
input every stream has been opened and closed with no write; the handler, which returns when
there is at least one shard, leaves these streams. -/
theorem AddNamespaces_broadcasts_to_every_shard (backends : List String)
    (reader : List Namespace) :
    AddNamespaces.streams backends reader
        = List.replicate backends.length ⟨reader, true, true⟩
      ∧ (∀ i, i < backends.length →
          writtenTo (AddNamespaces.streams backends reader) i = reader)
      ∧ AddNamespaces.streams backends [] = List.replicate backends.length ⟨[], true, true⟩
      ∧ (∀ shard : Nat → List Namespace → Status × Int64Value, 1 ≤ backends.length →
          ∃ out, AddNamespaces shard backends reader = some out
            ∧ out.writers = AddNamespaces.streams backends reader) := by
  refine ⟨AddNamespaces_streams_eq _ _, ?_, AddNamespaces_streams_eq _ _, ?_⟩
  · intro i hi
    rw [AddNamespaces_streams_eq]
    simp [writtenTo, List.getElem?_replicate, hi]
  · intro shard hN
    exact ⟨_, AddNamespaces_eq shard backends reader hN, rfl⟩

/-- Witness for C5: two namespaces broadcast to two shards. -/
theorem AddNamespaces_broadcasts_to_every_shard_witness :
    ∃ out, AddNamespaces (fun _ l => (Status.OK, ⟨l.length⟩)) ["shard0", "shard1"]
        [⟨"ex", "http://e/"⟩, ⟨"foaf", "http://xmlns.com/foaf/0.1/"⟩] = some out
      ∧ out.writers
        = [⟨[⟨"ex", "http://e/"⟩, ⟨"foaf", "http://xmlns.com/foaf/0.1/"⟩], true, true⟩,
           ⟨[⟨"ex", "http://e/"⟩, ⟨"foaf", "http://xmlns.com/foaf/0.1/"⟩], true, true⟩] := by
  have hall := AddNamespaces_broadcasts_to_every_shard ["shard0", "shard1"]
    [⟨"ex", "http://e/"⟩, ⟨"foaf", "http://xmlns.com/foaf/0.1/"⟩]
  obtain ⟨out, h, hw⟩ := hall.2.2.2 (fun _ l => (Status.OK, ⟨l.length⟩)) (by decide)
  refine ⟨out, h, ?_⟩
  rw [hw, hall.1]
  rfl

/-- C8: with at least one shard, `AddNamespaces` returns and its reply is the count reported by
shard 0: it is the same whatever the other shards report, and it differs from the sum over the
shards whenever the counts of the other shards do not add up to zero. -/
theorem AddNamespaces_replies_shard_zero (shard : Nat → List Namespace → Status × Int64Value)
    (backends : List String) (reader : List Namespace) (hN : 1 ≤ backends.length) :
    ∃ out, AddNamespaces shard backends reader = some out
      ∧ out.result.value = (shard 0 reader).2.value
      ∧ (∀ other : Nat → List Namespace → Status × Int64Value,
          other 0 reader = shard 0 reader →
          ∃ out', AddNamespaces other backends reader = some out'
            ∧ out'.result = out.result)
      ∧ (sumOverShards (backends.length - 1) (fun i => (shard (i + 1) reader).2.value) ≠ 0 →
          out.result.value ≠ sumOverShards backends.length (fun i => (shard i reader).2.value)) := by
  refine ⟨_, AddNamespaces_eq shard backends reader hN, rfl, ?_, ?_⟩
  · intro other h0
    refine ⟨_, AddNamespaces_eq other backends reader hN, ?_⟩
    simp only [h0]
  · intro hrest
    obtain ⟨n, hn⟩ : ∃ n, backends.length = n + 1 := ⟨backends.length - 1, by omega⟩
    simp only [hn, Nat.add_sub_cancel] at hrest ⊢
    unfold sumOverShards at hrest ⊢
    rw [List.range_succ_eq_map, List.map_cons, List.sum_cons, List.map_map]
    intro heq
    apply hrest
    have : ((List.range n).map ((fun i => (shard i reader).2.value) ∘ Nat.succ)).sum = 0 := by
      omega
    simpa [Function.comp] using this

/-- Witness for C8: two shards that each report 2 for the two namespaces give the reply 2. -/
theorem AddNamespaces_replies_shard_zero_witness :
    ∃ out, AddNamespaces (fun _ l => (Status.OK, ⟨l.length⟩)) ["shard0", "shard1"]
        [⟨"ex", "http://e/"⟩, ⟨"foaf", "http://xmlns.com/foaf/0.1/"⟩] = some out
      ∧ out.result.value = 2 := by
  obtain ⟨out, h, hv, -, -⟩ := AddNamespaces_replies_shard_zero
    (fun _ l => (Status.OK, ⟨l.length⟩)) ["shard0", "shard1"]
    [⟨"ex", "http://e/"⟩, ⟨"foaf", "http://xmlns.com/foaf/0.1/"⟩] (by decide)
  exact ⟨out, h, by rw [hv]; decide⟩

/-! ## The write handlers keep one stream per shard -/

theorem writeToBucket_length {α : Type} (hash : Nat) (backends : List String)
    (writers ws : List (ClientWriter α)) (r : α)
    (h : writeToBucket hash backends writers r = some ws) : ws.length = writers.length := by
  unfold writeToBucket at h
  split at h
  · cases h
  · simp only [] at h
    split at h
    · cases h
    · cases h
      simp

theorem Update_route_length (stmt_hash : Statement → Nat) (backends : List String)
    (writers ws : List (ClientWriter UpdateRequest)) (req : UpdateRequest)
    (h : Update.route stmt_hash backends writers req = some ws) :
    ws.length = writers.length := by
  cases req with
  | unset =>
    simp [Update.route, UpdateRequest.has_stmt_added, UpdateRequest.has_stmt_removed,
      UpdateRequest.has_ns_added, UpdateRequest.has_ns_removed] at h
    rw [← h]
  | stmt_added s =>
    cases hb : writeToBucket (stmt_hash s) backends writers (UpdateRequest.stmt_added s) with
    | none =>
      simp [Update.route, UpdateRequest.has_stmt_added, UpdateRequest.get_stmt_added, hb] at h
    | some ws1 =>
      simp [Update.route, UpdateRequest.has_stmt_added, UpdateRequest.has_stmt_removed,
        UpdateRequest.has_ns_added, UpdateRequest.has_ns_removed,
        UpdateRequest.get_stmt_added, hb] at h
      rw [← h]
      exact writeToBucket_length _ _ _ _ _ hb
  | stmt_removed s =>
    cases hb : writeToBucket (stmt_hash s) backends writers (UpdateRequest.stmt_removed s) with
    | none =>
      simp [Update.route, UpdateRequest.has_stmt_added, UpdateRequest.has_stmt_removed,
        UpdateRequest.get_stmt_removed, hb] at h
    | some ws1 =>
      simp [Update.route, UpdateRequest.has_stmt_added, UpdateRequest.has_stmt_removed,
        UpdateRequest.has_ns_added, UpdateRequest.has_ns_removed,
        UpdateRequest.get_stmt_removed, hb] at h
      rw [← h]
      exact writeToBucket_length _ _ _ _ _ hb
  | ns_added n =>
    simp [Update.route, UpdateRequest.has_stmt_added, UpdateRequest.has_stmt_removed,
      UpdateRequest.has_ns_added] at h
    rw [← h, writeToAll_length]
  | ns_removed n =>
    simp [Update.route, UpdateRequest.has_stmt_added, UpdateRequest.has_stmt_removed,
      UpdateRequest.has_ns_added, UpdateRequest.has_ns_removed] at h
    rw [← h, writeToAll_length]

theorem readLoop_length {α : Type}
    (body : List (ClientWriter α) → α → Option (List (ClientWriter α)))
    (hbody : ∀ ws r ws', body ws r = some ws' → ws'.length = ws.length)
    (reader : List α) (ws ws' : List (ClientWriter α))
    (h : readLoop body reader ws = some ws') : ws'.length = ws.length := by
  induction reader generalizing ws with
  | nil =>
    simp only [readLoop, Option.some.injEq] at h
    rw [← h]
  | cons r rest ih =>
    simp only [readLoop] at h
    cases hb : body ws r with
    | none => rw [hb] at h; cases h
    | some ws1 =>
      rw [hb] at h
      rw [ih ws1 h, hbody ws r ws1 hb]

/-- A return of `AddStatements` comes with one stream per shard, and the reply is the reply
handed in to which the terminal replies have been added. -/
theorem AddStatements_some (stmt_hash : Statement → Nat)
    (shard : Nat → List Statement → Status × Int64Value)
    (backends : List String) (reader : List Statement) (result : Int64Value)
    (out : Outcome Statement Int64Value)
    (h : AddStatements stmt_hash shard backends reader result = some out) :
    ∃ ws : List (ClientWriter Statement), ws.length = backends.length
      ∧ out.writers = closeWriters ws
      ∧ out.result = sumInto result ((terminal shard 0 ws).map Prod.snd) := by
  unfold AddStatements at h
  split at h
  · cases h
  · rename_i ws hws
    cases h
    refine ⟨ws, ?_, rfl, rfl⟩
    rw [readLoop_length _ (fun ws r ws' hb => writeToBucket_length _ _ _ _ _ hb) _ _ _ hws,
      openWriters_length]

/-- A return of `Update` comes with one stream per shard, and the reply is the reply handed in
to which the terminal replies have been added. -/
theorem Update_some (stmt_hash : Statement → Nat)
    (shard : Nat → List UpdateRequest → Status × UpdateResponse)
    (backends : List String) (reader : List UpdateRequest) (result : UpdateResponse)
    (out : Outcome UpdateRequest UpdateResponse)
    (h : Update stmt_hash shard backends reader result = some out) :
    ∃ ws : List (ClientWriter UpdateRequest), ws.length = backends.length
      ∧ out.writers = closeWriters ws
      ∧ out.result = ((terminal shard 0 ws).map Prod.snd).foldl addCounters result := by
  unfold Update at h
  split at h
  · cases h
  · rename_i ws hws
    cases h
    refine ⟨ws, ?_, rfl, rfl⟩
    rw [readLoop_length _ (fun ws r ws' hb => Update_route_length _ _ _ _ _ hb) _ _ _ hws,
      openWriters_length]

/-! ## AddStatements and Update: the counters -/

theorem foldl_wrapInt64 (xs : List Int) (r0 : Int) (h : inInt64 r0) :
    xs.foldl (fun r x => wrapInt64 (r + x)) r0 = wrapInt64 (r0 + xs.sum) := by
  induction xs generalizing r0 with
  | nil => simpa using (wrapInt64_of_inInt64 h).symm
  | cons x rest ih =>
    rw [List.foldl_cons, ih _ (inInt64_wrapInt64 _), wrapInt64_add_wrap, List.sum_cons]
    congr 1
    ring

theorem sumInto_value (result : Int64Value) (responses : List Int64Value) :
    (sumInto result responses).value
      = (responses.map Int64Value.value).foldl (fun r x => wrapInt64 (r + x)) result.value := by
  unfold sumInto
  induction responses generalizing result with
  | nil => rfl
  | cons r rest ih => simp only [List.foldl_cons, List.map_cons]; rw [ih]

theorem foldl_addCounters (result : UpdateResponse) (responses : List UpdateResponse) :
    (responses.foldl addCounters result).added_namespaces
        = (responses.map UpdateResponse.added_namespaces).foldl
            (fun r x => wrapInt64 (r + x)) result.added_namespaces
      ∧ (responses.foldl addCounters result).removed_namespaces
        = (responses.map UpdateResponse.removed_namespaces).foldl
            (fun r x => wrapInt64 (r + x)) result.removed_namespaces
      ∧ (responses.foldl addCounters result).added_statements
        = (responses.map UpdateResponse.added_statements).foldl
            (fun r x => wrapInt64 (r + x)) result.added_statements
      ∧ (responses.foldl addCounters result).removed_statements
        = (responses.map UpdateResponse.removed_statements).foldl
            (fun r x => wrapInt64 (r + x)) result.removed_statements := by
  induction responses generalizing result with
  | nil => exact ⟨rfl, rfl, rfl, rfl⟩
  | cons r rest ih =>
    simp only [List.foldl_cons, List.map_cons]
    exact ih (addCounters result r)

theorem sumOverShards_const (n : Nat) (c : Int) (count : Nat → Int)
    (h : ∀ i, i < n → count i = c) : sumOverShards n count = n * c := by
  unfold sumOverShards
  have hmap : (List.range n).map count = List.replicate n c := by
    rw [List.eq_replicate_iff]
    refine ⟨by simp, ?_⟩
    intro b hb
    obtain ⟨i, hi, rfl⟩ := List.mem_map.mp hb
    exact h i (List.mem_range.mp hi)
  rw [hmap, List.sum_replicate]
  simp

theorem terminal_replies_sum {α ρ : Type} (shard : Nat → List α → Status × ρ)
    (writers : List (ClientWriter α)) (field : ρ → Int) :
    (((terminal shard 0 writers).map Prod.snd).map field).sum
      = sumOverShards writers.length
          (fun i => field (shard i (writtenTo (closeWriters writers) i)).2) := by
  rw [terminal_eq_map_range]
  unfold sumOverShards
  simp only [List.map_map]
  congr 1
  apply List.map_congr_left
  intro i _
  simp [Function.comp, writtenTo_closeWriters]

/-- C7: for every shard count, whenever `AddStatements` or `Update`, called with a fresh reply
message, returns, each counter of the reply is the 64-bit sum over all the shards of the
corresponding counter of the terminal replies, hence the sum itself when the sum fits in 64
bits; when every shard reports the namespace count `c`, `Update` reports `N * c`; and with at
least one shard both handlers do return. -/
theorem streaming_counts_are_summed (stmt_hash : Statement → Nat)
    (shardS : Nat → List Statement → Status × Int64Value)
    (shardU : Nat → List UpdateRequest → Status × UpdateResponse)
    (backends : List String) (statements : List Statement) (updates : List UpdateRequest) :
    (∀ out, AddStatements stmt_hash shardS backends statements Int64Value.fresh = some out →
      out.result.value = wrapInt64 (sumOverShards backends.length
          (fun i => (shardS i (writtenTo out.writers i)).2.value))
      ∧ (inInt64 (sumOverShards backends.length
            (fun i => (shardS i (writtenTo out.writers i)).2.value)) →
          out.result.value = sumOverShards backends.length
            (fun i => (shardS i (writtenTo out.writers i)).2.value)))
    ∧ (∀ out, Update stmt_hash shardU backends updates UpdateResponse.fresh = some out →
      out.result.added_namespaces = wrapInt64 (sumOverShards backends.length
          (fun i => (shardU i (writtenTo out.writers i)).2.added_namespaces))
      ∧ out.result.removed_namespaces = wrapInt64 (sumOverShards backends.length
          (fun i => (shardU i (writtenTo out.writers i)).2.removed_namespaces))
      ∧ out.result.added_statements = wrapInt64 (sumOverShards backends.length
          (fun i => (shardU i (writtenTo out.writers i)).2.added_statements))
      ∧ out.result.removed_statements = wrapInt64 (sumOverShards backends.length
          (fun i => (shardU i (writtenTo out.writers i)).2.removed_statements))
      ∧ (∀ field : UpdateResponse → Int,
          field = UpdateResponse.added_namespaces ∨ field = UpdateResponse.removed_namespaces
            ∨ field = UpdateResponse.added_statements
            ∨ field = UpdateResponse.removed_statements →
          inInt64 (sumOverShards backends.length
            (fun i => field (shardU i (writtenTo out.writers i)).2)) →
          field out.result = sumOverShards backends.length
            (fun i => field (shardU i (writtenTo out.writers i)).2))
      ∧ (∀ c : Int, (∀ i, i < backends.length →
            (shardU i (writtenTo out.writers i)).2.added_namespaces = c) →
          out.result.added_namespaces = wrapInt64 (backends.length * c)
            ∧ (inInt64 (backends.length * c) →
                out.result.added_namespaces = backends.length * c)))
    ∧ (1 ≤ backends.length →
        (∃ out, AddStatements stmt_hash shardS backends statements Int64Value.fresh = some out)
        ∧ (∃ out, Update stmt_hash shardU backends updates UpdateResponse.fresh = some out)) := by
  have h0 : inInt64 0 := by unfold inInt64; omega
  refine ⟨?_, ?_, ?_⟩
  · intro out hout
    obtain ⟨ws, hlen, hw, hres⟩ := AddStatements_some _ _ _ _ _ _ hout
    have hval : out.result.value = wrapInt64 (sumOverShards backends.length
        (fun i => (shardS i (writtenTo out.writers i)).2.value)) := by
      rw [hres, hw, sumInto_value, show Int64Value.fresh.value = 0 from rfl,
        foldl_wrapInt64 _ _ h0, terminal_replies_sum shardS ws Int64Value.value, hlen]
      simp
    exact ⟨hval, fun hfit => hval.trans (wrapInt64_of_inInt64 hfit)⟩
  · intro out hout
    obtain ⟨ws, hlen, hw, hres⟩ := Update_some _ _ _ _ _ _ hout
    obtain ⟨h1, h2, h3, h4⟩ :=
      foldl_addCounters UpdateResponse.fresh ((terminal shardU 0 ws).map Prod.snd)
    have key : ∀ field : UpdateResponse → Int, field UpdateResponse.fresh = 0 →
        (((terminal shardU 0 ws).map Prod.snd).map field).foldl
            (fun r x => wrapInt64 (r + x)) (field UpdateResponse.fresh)
          = wrapInt64 (sumOverShards backends.length
              (fun i => field (shardU i (writtenTo out.writers i)).2)) := by
      intro field hf
      rw [hf, foldl_wrapInt64 _ _ h0, terminal_replies_sum shardU ws field, hlen, hw]
      simp
    rw [hres]
    have ha := h1.trans (key UpdateResponse.added_namespaces rfl)
    have hb := h2.trans (key UpdateResponse.removed_namespaces rfl)
    have hc := h3.trans (key UpdateResponse.added_statements rfl)
    have hd := h4.trans (key UpdateResponse.removed_statements rfl)
    refine ⟨ha, hb, hc, hd, ?_, ?_⟩
    · intro field hfield hfit
      rcases hfield with rfl | rfl | rfl | rfl
      · exact ha.trans (wrapInt64_of_inInt64 hfit)
      · exact hb.trans (wrapInt64_of_inInt64 hfit)
      · exact hc.trans (wrapInt64_of_inInt64 hfit)
      · exact hd.trans (wrapInt64_of_inInt64 hfit)
    · intro c hcount
      have hsum := sumOverShards_const backends.length c
        (fun i => (shardU i (writtenTo out.writers i)).2.added_namespaces) hcount
      have hv : (((terminal shardU 0 ws).map Prod.snd).foldl addCounters
          UpdateResponse.fresh).added_namespaces = wrapInt64 (backends.length * c) := by
        rw [ha, hsum]
      exact ⟨hv, fun hfit => hv.trans (wrapInt64_of_inInt64 hfit)⟩
  · intro hN
    obtain ⟨ws, -, -, -, h⟩ :=
      AddStatements_streams stmt_hash shardS backends statements Int64Value.fresh hN
    obtain ⟨ws', -, -, -, h'⟩ :=
      Update_streams stmt_hash shardU backends updates UpdateResponse.fresh hN
    exact ⟨⟨_, h⟩, ⟨_, h'⟩⟩

/-- Witness for C7: three statements over two shards that report what they received give 3;
two shards that each report one added namespace give 2. -/
theorem streaming_counts_are_summed_witness :
    (∃ out, AddStatements (fun s => s.subject.length) (fun _ l => (Status.OK, ⟨l.length⟩))
        ["shard0", "shard1"]
        [⟨"a", "p", "o", "g"⟩, ⟨"", "p", "o", "g"⟩, ⟨"abc", "p", "o", "g"⟩] Int64Value.fresh
        = some out ∧ out.result.value = 3)
    ∧ (∃ out, Update (fun s => s.subject.length) (fun _ _ => (Status.OK, ⟨1, 0, 0, 0⟩))
        ["shard0", "shard1"] [.ns_added ⟨"x", "http://x/"⟩] UpdateResponse.fresh
        = some out ∧ out.result.added_namespaces = 2) := by
  have hall := streaming_counts_are_summed (fun s => s.subject.length)
    (fun _ l => (Status.OK, ⟨l.length⟩)) (fun _ _ => (Status.OK, ⟨1, 0, 0, 0⟩))
    ["shard0", "shard1"]
    [⟨"a", "p", "o", "g"⟩, ⟨"", "p", "o", "g"⟩, ⟨"abc", "p", "o", "g"⟩]
    [.ns_added ⟨"x", "http://x/"⟩]
  obtain ⟨hS, hU, hret⟩ := hall
  obtain ⟨⟨out, h⟩, ⟨out', h'⟩⟩ := hret (by decide)
  constructor
  · refine ⟨out, h, ?_⟩
    have hrun : AddStatements (fun s => s.subject.length)
        (fun _ l => (Status.OK, ⟨l.length⟩)) ["shard0", "shard1"]
        [⟨"a", "p", "o", "g"⟩, ⟨"", "p", "o", "g"⟩, ⟨"abc", "p", "o", "g"⟩]
        Int64Value.fresh = some ⟨Status.OK, ⟨3⟩,
          [⟨[⟨"", "p", "o", "g"⟩], true, true⟩,
           ⟨[⟨"a", "p", "o", "g"⟩, ⟨"abc", "p", "o", "g"⟩], true, true⟩],
          [Status.OK, Status.OK]⟩ := by rfl
    have hout := h
    rw [hrun] at hout
    have hv := (hS out h).1
    rw [← Option.some.inj hout] at hv ⊢
  · refine ⟨out', h', ?_⟩
    exact (((hU out' h').2.2.2.2.2 1 (fun _ _ => rfl)).2 (by decide)).trans (by decide)

/-! ## Index safety of the routed writes -/

theorem Update_route_zero (stmt_hash : Statement → Nat) (backends : List String)
    (req : UpdateRequest) (hN : backends.length = 0)
    (hreq : req.has_stmt_added = true ∨ req.has_stmt_removed = true)
    (writers : List (ClientWriter UpdateRequest)) :
    Update.route stmt_hash backends writers req = none := by
  cases req with
  | unset => simp [UpdateRequest.has_stmt_added, UpdateRequest.has_stmt_removed] at hreq
  | stmt_added s =>
    simp [Update.route, UpdateRequest.has_stmt_added, writeToBucket_zero _ _ _ _ hN]
  | stmt_removed s =>
    simp [Update.route, UpdateRequest.has_stmt_added, UpdateRequest.has_stmt_removed,
      writeToBucket_zero _ _ _ _ hN]
  | ns_added n => simp [UpdateRequest.has_stmt_added, UpdateRequest.has_stmt_removed] at hreq
  | ns_removed n => simp [UpdateRequest.has_stmt_added, UpdateRequest.has_stmt_removed] at hreq

/-- C10: with at least one shard, the bucket of every statement is below the shard count, the
lookup `writers[bucket]` of a routed write finds a writer whenever there are as many writers as
shards, and `AddStatements`, `Update` and `AddNamespaces` run to their end; with no shard, the
modulus has no value, so `AddStatements` on a non-empty input and `Update` on an input with a
statement record have no result, and neither has `AddNamespaces`, which reads `stats[0]`. -/
theorem routed_bucket_within_writers (stmt_hash : Statement → Nat)
    (shardS : Nat → List Statement → Status × Int64Value)
    (shardU : Nat → List UpdateRequest → Status × UpdateResponse)
    (shardN : Nat → List Namespace → Status × Int64Value)
    (backends : List String) :
    (1 ≤ backends.length →
      (∀ stmt, bucketOf stmt_hash backends.length stmt < backends.length)
      ∧ (∀ (writers : List (ClientWriter Statement)) stmt, writers.length = backends.length →
          ∃ w, writers[bucketOf stmt_hash backends.length stmt]? = some w
            ∧ writeToBucket (stmt_hash stmt) backends writers stmt
              = some (writers.set (bucketOf stmt_hash backends.length stmt) (w.Write stmt)))
      ∧ (∀ statements result, ∃ out,
          AddStatements stmt_hash shardS backends statements result = some out)
      ∧ (∀ updates result, ∃ out,
          Update stmt_hash shardU backends updates result = some out)
      ∧ (∀ namespaces, ∃ out, AddNamespaces shardN backends namespaces = some out))
    ∧ (backends.length = 0 →
      (∀ statements result, statements ≠ [] →
          AddStatements stmt_hash shardS backends statements result = none)
      ∧ (∀ updates result req, req ∈ updates →
          (req.has_stmt_added = true ∨ req.has_stmt_removed = true) →
          Update stmt_hash shardU backends updates result = none)
      ∧ (∀ namespaces, AddNamespaces shardN backends namespaces = none)) := by
  constructor
  · intro hN
    refine ⟨fun stmt => Nat.mod_lt _ hN, ?_, ?_, ?_, ?_⟩
    · intro writers stmt hlen
      have hb : bucketOf stmt_hash backends.length stmt < writers.length := by
        rw [hlen]; exact Nat.mod_lt _ hN
      refine ⟨writers[bucketOf stmt_hash backends.length stmt], List.getElem?_eq_getElem hb, ?_⟩
      have hb' : stmt_hash stmt % backends.length < writers.length := hb
      simp only [writeToBucket, show backends.length ≠ 0 by omega, if_false,
        List.getElem?_eq_getElem hb']
      rfl
    · intro statements result
      obtain ⟨ws, -, -, -, h⟩ := AddStatements_streams stmt_hash shardS backends statements result hN
      exact ⟨_, h⟩
    · intro updates result
      obtain ⟨ws, -, -, -, h⟩ := Update_streams stmt_hash shardU backends updates result hN
      exact ⟨_, h⟩
    · intro namespaces
      exact ⟨_, AddNamespaces_eq shardN backends namespaces hN⟩
  · intro hN
    refine ⟨?_, ?_, ?_⟩
    · intro statements result hne
      obtain ⟨s, hs⟩ := List.exists_mem_of_ne_nil statements hne
      have h := readLoop_none
        (fun writers stmt => writeToBucket (stmt_hash stmt) backends writers stmt)
        statements s hs (fun ws => writeToBucket_zero _ _ ws _ hN)
        (openWriters Statement backends)
      simp only [AddStatements, h]
    · intro updates result req hmem hreq
      have h := readLoop_none (Update.route stmt_hash backends) updates req hmem
        (Update_route_zero stmt_hash backends req hN hreq) (openWriters UpdateRequest backends)
      simp only [Update, h]
    · intro namespaces
      have hb : backends = [] := List.length_eq_zero.mp hN
      subst hb
      simp [AddNamespaces, openWriters, foldl_writeToAll, terminal]

/-- Witness for C10: over two shards a statement whose hash is 3 goes to writer 1; with no
shard `AddStatements` has no result on one statement. -/
theorem routed_bucket_within_writers_witness :
    bucketOf (fun s => s.subject.length) 2 ⟨"abc", "p", "o", "g"⟩ < 2
      ∧ AddStatements (fun s => s.subject.length) (fun _ l => (Status.OK, ⟨l.length⟩)) []
          [⟨"abc", "p", "o", "g"⟩] Int64Value.fresh = none := by
  have h2 := routed_bucket_within_writers (fun s => s.subject.length)
    (fun _ l => (Status.OK, ⟨l.length⟩)) (fun _ _ => (Status.OK, UpdateResponse.fresh))
    (fun _ l => (Status.OK, ⟨l.length⟩)) ["shard0", "shard1"]
  have h0 := routed_bucket_within_writers (fun s => s.subject.length)
    (fun _ l => (Status.OK, ⟨l.length⟩)) (fun _ _ => (Status.OK, UpdateResponse.fresh))
    (fun _ l => (Status.OK, ⟨l.length⟩)) []
  exact ⟨(h2.1 (by decide)).1 ⟨"abc", "p", "o", "g"⟩,
    (h0.2 rfl).1 [⟨"abc", "p", "o", "g"⟩] Int64Value.fresh (by simp)⟩

/-! ## The status of the write handlers -/

/-- The status returned by a write handler that returns is the constant `Status::OK`, whatever
the terminal statuses of the shards. -/
theorem write_handler_status_OK (stmt_hash : Statement → Nat)
    (shardS : Nat → List Statement → Status × Int64Value)
    (shardU : Nat → List UpdateRequest → Status × UpdateResponse)
    (shardN : Nat → List Namespace → Status × Int64Value)
    (backends : List String) :
    (∀ statements result out,
        AddStatements stmt_hash shardS backends statements result = some out →
        out.status = Status.OK)
    ∧ (∀ updates result out,
        Update stmt_hash shardU backends updates result = some out → out.status = Status.OK)
    ∧ (∀ namespaces out,
        AddNamespaces shardN backends namespaces = some out → out.status = Status.OK) := by
  refine ⟨?_, ?_, ?_⟩
  · intro statements result out h
    unfold AddStatements at h
    split at h
    · cases h
    · cases h; rfl
  · intro updates result out h
    unfold Update at h
    split at h
    · cases h
    · cases h; rfl
  · intro namespaces out h
    unfold AddNamespaces at h
    simp only [] at h
    split at h
    · cases h
    · cases h; rfl

/-- C6, the code at a failing input: over two shards of which shard 1 ends its stream with
`UNAVAILABLE`, `AddStatements`, `Update` and `AddNamespaces` all return `Status::OK`, with the
count of shard 0 as reply. -/
theorem write_handlers_return_OK_on_shard_failure :
    (AddStatements (fun s => s.subject.length) secondShardFails ["shard0", "shard1"]
        [⟨"", "p", "o", "g"⟩, ⟨"a", "p", "o", "g"⟩] Int64Value.fresh).map
        (fun out => (out.status, out.terminal_statuses, out.result))
      = some (Status.OK, [Status.OK, ⟨14, "unavailable"⟩], ⟨1⟩)
    ∧ (Update (fun s => s.subject.length) secondShardFailsUpdate ["shard0", "shard1"]
        [.stmt_added ⟨"", "p", "o", "g"⟩, .stmt_added ⟨"a", "p", "o", "g"⟩]
        UpdateResponse.fresh).map
        (fun out => (out.status, out.terminal_statuses, out.result))
      = some (Status.OK, [Status.OK, ⟨14, "unavailable"⟩], ⟨0, 0, 1, 0⟩)
    ∧ (AddNamespaces secondShardFails ["shard0", "shard1"] [⟨"ex", "http://e/"⟩]).map
        (fun out => (out.status, out.terminal_statuses, out.result))
      = some (Status.OK, [Status.OK, ⟨14, "unavailable"⟩], ⟨1⟩) := by
  refine ⟨?_, ?_, ?_⟩ <;> rfl

/-! ## GetStatements: the merge -/

theorem recordsFrom_append_same (result : List (Nat × Statement)) (i : Nat) (x : Statement) :
    recordsFrom (result ++ [(i, x)]) i = recordsFrom result i ++ [x] := by
  simp [recordsFrom, List.filter_append]

theorem recordsFrom_append_other (result : List (Nat × Statement)) (i j : Nat) (x : Statement)
    (h : j ≠ i) : recordsFrom (result ++ [(i, x)]) j = recordsFrom result j := by
  have h' : i ≠ j := fun e => h e.symm
  simp [recordsFrom, List.filter_append, h']

/-- The invariant survives a change of worker `i`, of the mutex and of the client stream that
keeps the account of worker `i` and leaves the other workers as they are. -/
theorem MergeInv.update {n : Nat} {stream : Nat → List Statement} {s : MergeState}
    (hinv : MergeInv n stream s) (i : Nat) (w : Worker) (m : Option Nat)
    (res : List (Nat × Statement))
    (hrec : recordsFrom res i ++ w.pending ++ w.reader = stream i)
    (hrec_other : ∀ j, j ≠ i → recordsFrom res j = recordsFrom s.result j)
    (hown : w.pc.holdsMutex = true ↔ m = some i)
    (hown_other : ∀ j, j < n → j ≠ i → ((s.workers j).pc.holdsMutex = true ↔ m = some j))
    (hlt : ∀ j, m = some j → j < n)
    (htags : ∀ e ∈ res, e.1 < n)
    (hdrained : w.pc = Pc.finished → w.reader = []) :
    MergeInv n stream ⟨Function.update s.workers i w, m, res⟩ := by
  refine ⟨?_, ?_, hlt, htags, ?_⟩
  · intro j hj
    by_cases hji : j = i
    · subst hji
      simpa using hrec
    · simp only [Function.update_noteq hji]
      rw [hrec_other j hji]
      exact hinv.records j hj
  · intro j hj
    by_cases hji : j = i
    · subst hji
      simpa using hown
    · simp only [Function.update_noteq hji]
      exact hown_other j hj hji
  · intro j hj
    by_cases hji : j = i
    · subst hji
      simpa using hdrained
    · simp only [Function.update_noteq hji]
      exact hinv.drained j hj

theorem MergeInv.mutex_of_holds {n : Nat} {stream : Nat → List Statement} {s : MergeState}
    (hinv : MergeInv n stream s) {i : Nat} (hi : i < n)
    (h : (s.workers i).pc.holdsMutex = true) : s.mutex = some i :=
  (hinv.owner i hi).mp h

theorem MergeInv.not_mutex_of_not_holds {n : Nat} {stream : Nat → List Statement}
    {s : MergeState} (hinv : MergeInv n stream s) {i : Nat} (hi : i < n)
    (h : (s.workers i).pc.holdsMutex = false) : s.mutex ≠ some i := by
  intro hm
  have := (hinv.owner i hi).mpr hm
  rw [h] at this
  cases this

/-- The invariant holds when the threads start. -/
theorem init_inv (n : Nat) (shard : Nat → Statement → List Statement) (pattern : Statement) :
    MergeInv n (fun i => shard i pattern) (GetStatements.init shard pattern) := by
  refine ⟨?_, ?_, ?_, ?_, ?_⟩
  · intro i _
    simp [GetStatements.init, recordsFrom, Worker.pending]
  · intro i _
    simp [GetStatements.init, Pc.holdsMutex]
  · intro j h
    simp [GetStatements.init] at h
  · intro e he
    simp [GetStatements.init] at he
  · intro i _ h
    simp [GetStatements.init] at h

/-- Every turn of a worker keeps the invariant. -/
theorem step_inv {n : Nat} {stream : Nat → List Statement} {s s' : MergeState} {i : Nat}
    (hinv : MergeInv n stream s) (h : GetStatements.step n s i = some s') :
    MergeInv n stream s' := by
  by_cases hi : i < n
  swap
  · simp [GetStatements.step, hi] at h
  have hrecs := hinv.records i hi
  have hown := hinv.owner i hi
  cases hpc : (s.workers i).pc with
  | read =>
    have hnot : s.mutex ≠ some i :=
      hinv.not_mutex_of_not_holds hi (by rw [hpc]; rfl)
    cases hrd : (s.workers i).reader with
    | nil =>
      simp only [GetStatements.step, hi, if_true, hpc, hrd, Option.some.injEq] at h
      subst h
      apply hinv.update i _ s.mutex s.result
      · simpa [Worker.pending, hpc, hrd] using hrecs
      · intro j _; rfl
      · simp [Pc.holdsMutex, hnot]
      · intro j hj _; exact hinv.owner j hj
      · exact hinv.owner_lt
      · exact hinv.tags
      · intro _; rfl
    | cons r rest =>
      simp only [GetStatements.step, hi, if_true, hpc, hrd, Option.some.injEq] at h
      subst h
      apply hinv.update i _ s.mutex s.result
      · simpa [Worker.pending, hpc, hrd] using hrecs
      · intro j _; rfl
      · simp [Pc.holdsMutex, hnot]
      · intro j hj _; exact hinv.owner j hj
      · exact hinv.owner_lt
      · exact hinv.tags
      · intro hf; cases hf
  | lock =>
    cases hm : s.mutex with
    | some j => simp [GetStatements.step, hi, hpc, hm] at h
    | none =>
      simp only [GetStatements.step, hi, if_true, hpc, hm, Option.some.injEq] at h
      subst h
      apply hinv.update i _ (some i) s.result
      · simpa [Worker.pending, hpc] using hrecs
      · intro j _; rfl
      · simp [Pc.holdsMutex]
      · intro j hj hji
        have hj' := hinv.owner j hj
        rw [hm] at hj'
        constructor
        · intro hh; exact absurd (hj'.mp hh) (by simp)
        · intro hh; exact absurd (Option.some.inj hh).symm hji
      · intro j hj; cases hj; exact hi
      · exact hinv.tags
      · intro hf; cases hf
  | write =>
    simp only [GetStatements.step, hi, if_true, hpc, Option.some.injEq] at h
    subst h
    have hmx : s.mutex = some i := hinv.mutex_of_holds hi (by rw [hpc]; rfl)
    apply hinv.update i _ s.mutex s.result
    · simpa [Worker.pending, hpc] using hrecs
    · intro j _; rfl
    · simp [Pc.holdsMutex, hmx]
    · intro j hj _; exact hinv.owner j hj
    · exact hinv.owner_lt
    · exact hinv.tags
    · intro hf; cases hf
  | writing =>
    simp only [GetStatements.step, hi, if_true, hpc, Option.some.injEq] at h
    subst h
    have hmx : s.mutex = some i := hinv.mutex_of_holds hi (by rw [hpc]; rfl)
    apply hinv.update i _ s.mutex (s.result ++ [(i, (s.workers i).stmt)])
    · rw [recordsFrom_append_same]
      simpa [Worker.pending, hpc] using hrecs
    · intro j hji; exact recordsFrom_append_other _ _ _ _ hji
    · simp [Pc.holdsMutex, hmx]
    · intro j hj _; exact hinv.owner j hj
    · exact hinv.owner_lt
    · intro e he
      rcases List.mem_append.mp he with he | he
      · exact hinv.tags e he
      · simp only [List.mem_singleton] at he
        subst he
        exact hi
    · intro hf; cases hf
  | count =>
    simp only [GetStatements.step, hi, if_true, hpc, Option.some.injEq] at h
    subst h
    have hmx : s.mutex = some i := hinv.mutex_of_holds hi (by rw [hpc]; rfl)
    apply hinv.update i _ s.mutex s.result
    · simpa [Worker.pending, hpc] using hrecs
    · intro j _; rfl
    · simp [Pc.holdsMutex, hmx]
    · intro j hj _; exact hinv.owner j hj
    · exact hinv.owner_lt
    · exact hinv.tags
    · intro hf; cases hf
  | unlock =>
    simp only [GetStatements.step, hi, if_true, hpc, Option.some.injEq] at h
    subst h
    have hmx : s.mutex = some i := hinv.mutex_of_holds hi (by rw [hpc]; rfl)
    apply hinv.update i _ none s.result
    · simpa [Worker.pending, hpc] using hrecs
    · intro j _; rfl
    · simp [Pc.holdsMutex]
    · intro j hj hji
      have hj' := hinv.owner j hj
      rw [hmx] at hj'
      constructor
      · intro hh; exact absurd (Option.some.inj (hj'.mp hh)).symm hji
      · intro hh; cases hh
    · intro j hj; cases hj
    · exact hinv.tags
    · intro hf; cases hf
  | finished =>
    simp [GetStatements.step, hi, hpc] at h

/-- The invariant holds after every schedule. -/
theorem run_inv {n : Nat} {stream : Nat → List Statement} (schedule : List Nat)
    {s : MergeState} (hinv : MergeInv n stream s) :
    MergeInv n stream (GetStatements.run n s schedule) := by
  induction schedule generalizing s with
  | nil => exact hinv
  | cons i rest ih =>
    simp only [GetStatements.run, List.foldl_cons]
    cases h : GetStatements.step n s i with
    | none => exact ih hinv
    | some s' => exact ih (step_inv hinv h)

/-! ### Progress and termination of the merge -/

/-- A turn that moves a worker changes that worker only, and takes one statement off what it
has still to execute. -/
theorem step_shape {n : Nat} {s s' : MergeState} {i : Nat}
    (h : GetStatements.step n s i = some s') :
    i < n ∧ ∃ w, s'.workers = Function.update s.workers i w
      ∧ w.remaining + 1 = (s.workers i).remaining := by
  by_cases hi : i < n
  swap
  · simp [GetStatements.step, hi] at h
  refine ⟨hi, ?_⟩
  cases hpc : (s.workers i).pc with
  | read =>
    cases hrd : (s.workers i).reader with
    | nil =>
      simp only [GetStatements.step, hi, if_true, hpc, hrd, Option.some.injEq] at h
      subst h
      exact ⟨_, rfl, by simp [Worker.remaining, hpc, hrd]⟩
    | cons r rest =>
      simp only [GetStatements.step, hi, if_true, hpc, hrd, Option.some.injEq] at h
      subst h
      refine ⟨_, rfl, ?_⟩
      simp only [Worker.remaining, hpc, hrd, List.length_cons]
      omega
  | lock =>
    cases hm : s.mutex with
    | some j => simp [GetStatements.step, hi, hpc, hm] at h
    | none =>
      simp only [GetStatements.step, hi, if_true, hpc, hm, Option.some.injEq] at h
      subst h
      exact ⟨_, rfl, by simp [Worker.remaining, hpc]⟩
  | write =>
    simp only [GetStatements.step, hi, if_true, hpc, Option.some.injEq] at h
    subst h
    exact ⟨_, rfl, by simp [Worker.remaining, hpc]⟩
  | writing =>
    simp only [GetStatements.step, hi, if_true, hpc, Option.some.injEq] at h
    subst h
    exact ⟨_, rfl, by simp [Worker.remaining, hpc]⟩
  | count =>
    simp only [GetStatements.step, hi, if_true, hpc, Option.some.injEq] at h
    subst h
    exact ⟨_, rfl, by simp [Worker.remaining, hpc]⟩
  | unlock =>
    simp only [GetStatements.step, hi, if_true, hpc, Option.some.injEq] at h
    subst h
    exact ⟨_, rfl, by simp [Worker.remaining, hpc]⟩
  | finished =>
    simp [GetStatements.step, hi, hpc] at h

theorem step_remaining {n : Nat} {s s' : MergeState} {i : Nat}
    (h : GetStatements.step n s i = some s') :
    remainingSteps n s' + 1 = remainingSteps n s := by
  obtain ⟨hi, w, hw, hrem⟩ := step_shape h
  unfold remainingSteps
  rw [hw]
  have := (sum_range_update_at n i s.workers w (fun _ (w : Worker) => w.remaining)).1 hi
  simp only [] at this
  omega

/-- The moves made under a schedule are taken off the statements that remain. -/
theorem run_remaining (n : Nat) (schedule : List Nat) (s : MergeState) :
    remainingSteps n (GetStatements.run n s schedule) + GetStatements.moves n s schedule
      = remainingSteps n s := by
  induction schedule generalizing s with
  | nil => rfl
  | cons i rest ih =>
    simp only [GetStatements.run, List.foldl_cons, GetStatements.moves]
    cases h : GetStatements.step n s i with
    | none => exact ih s
    | some s' =>
      have h1 := ih s'
      have h2 := step_remaining h
      simp only [GetStatements.run, Option.getD_some] at h1 ⊢
      omega

theorem run_append (n : Nat) (s : MergeState) (xs ys : List Nat) :
    GetStatements.run n s (xs ++ ys) = GetStatements.run n (GetStatements.run n s xs) ys := by
  simp [GetStatements.run, List.foldl_append]

theorem allFinished_iff (n : Nat) (s : MergeState) :
    allFinished n s = true ↔ ∀ i, i < n → (s.workers i).pc = Pc.finished := by
  simp [allFinished, List.all_eq_true]

theorem remaining_eq_zero_iff (w : Worker) : w.remaining = 0 ↔ w.pc = Pc.finished := by
  unfold Worker.remaining
  cases w.pc <;> simp

theorem allFinished_iff_remaining (n : Nat) (s : MergeState) :
    allFinished n s = true ↔ remainingSteps n s = 0 := by
  rw [allFinished_iff]
  unfold remainingSteps
  rw [List.sum_eq_zero_iff]
  constructor
  · intro h x hx
    obtain ⟨i, hi, rfl⟩ := List.mem_map.mp hx
    exact (remaining_eq_zero_iff _).mpr (h i (List.mem_range.mp hi))
  · intro h i hi
    apply (remaining_eq_zero_iff _).mp
    exact h _ (List.mem_map.mpr ⟨i, List.mem_range.mpr hi, rfl⟩)

/-- A worker that is in its loop and does not wait for a held mutex can move. -/
theorem step_enabled {n : Nat} (s : MergeState) {i : Nat} (hi : i < n)
    (hpc : (s.workers i).pc ≠ Pc.finished)
    (hlock : (s.workers i).pc = Pc.lock → s.mutex = none) :
    ∃ s', GetStatements.step n s i = some s' := by
  apply Option.isSome_iff_exists.mp
  cases h : (s.workers i).pc with
  | read =>
    cases hrd : (s.workers i).reader with
    | nil => simp [GetStatements.step, hi, h, hrd]
    | cons r rest => simp [GetStatements.step, hi, h, hrd]
  | lock => simp [GetStatements.step, hi, h, hlock h]
  | write => simp [GetStatements.step, hi, h]
  | writing => simp [GetStatements.step, hi, h]
  | count => simp [GetStatements.step, hi, h]
  | unlock => simp [GetStatements.step, hi, h]
  | finished => exact absurd h hpc

/-- No deadlock: while some worker is in its loop, some worker can move. -/
theorem progress {n : Nat} {stream : Nat → List Statement} {s : MergeState}
    (hinv : MergeInv n stream s) (h : allFinished n s = false) :
    ∃ i s', GetStatements.step n s i = some s' := by
  have hex : ∃ i, i < n ∧ (s.workers i).pc ≠ Pc.finished := by
    by_contra hcon
    push_neg at hcon
    have := (allFinished_iff n s).mpr hcon
    rw [h] at this
    cases this
  obtain ⟨i, hi, hpc⟩ := hex
  cases hm : s.mutex with
  | none =>
    obtain ⟨s', hs'⟩ := step_enabled s hi hpc (fun _ => hm)
    exact ⟨i, s', hs'⟩
  | some j =>
    have hj : j < n := hinv.owner_lt j hm
    have hholds : (s.workers j).pc.holdsMutex = true := (hinv.owner j hj).mpr hm
    have hjf : (s.workers j).pc ≠ Pc.finished := by
      intro e; rw [e] at hholds; cases hholds
    have hjl : (s.workers j).pc = Pc.lock → s.mutex = none := by
      intro e; rw [e] at hholds; cases hholds
    obtain ⟨s', hs'⟩ := step_enabled s hj hjf hjl
    exact ⟨j, s', hs'⟩

/-- Every state of the merge can be run to the end. -/
theorem completion {n : Nat} {stream : Nat → List Statement} (k : Nat) (s : MergeState)
    (hinv : MergeInv n stream s) (hk : remainingSteps n s = k) :
    ∃ more, allFinished n (GetStatements.run n s more) = true := by
  induction k generalizing s with
  | zero => exact ⟨[], (allFinished_iff_remaining n s).mpr hk⟩
  | succ k ih =>
    have hnot : allFinished n s = false := by
      cases hf : allFinished n s with
      | false => rfl
      | true =>
        have := (allFinished_iff_remaining n s).mp hf
        omega
    obtain ⟨i, s', hs'⟩ := progress hinv hnot
    have hrem := step_remaining hs'
    obtain ⟨more, hmore⟩ := ih s' (step_inv hinv hs') (by omega)
    refine ⟨i :: more, ?_⟩
    simpa [GetStatements.run, List.foldl_cons, hs'] using hmore

theorem remainingSteps_init (n : Nat) (shard : Nat → Statement → List Statement)
    (pattern : Statement) :
    remainingSteps n (GetStatements.init shard pattern)
      = ((List.range n).map (fun i => 6 * (shard i pattern).length + 1)).sum := rfl

/-- When all the workers are past their loop, the client stream is a merge of the shard
streams: the records written by worker `i` are the stream of shard `i`, and the whole is a
rearrangement of the shard streams put end to end. -/
theorem merged_of_allFinished {n : Nat} {stream : Nat → List Statement} {s : MergeState}
    (hinv : MergeInv n stream s) (hfin : allFinished n s = true) :
    (∀ i, i < n → recordsFrom s.result i = stream i)
      ∧ (s.result.map Prod.snd).Perm ((List.range n).map stream).flatten := by
  have hrec : ∀ i, i < n → recordsFrom s.result i = stream i := by
    intro i hi
    have hpc := (allFinished_iff n s).mp hfin i hi
    have h := hinv.records i hi
    rw [hinv.drained i hi hpc] at h
    simpa [Worker.pending, hpc] using h
  refine ⟨hrec, ?_⟩
  have hperm := routed_logs_perm n (fun e : Nat × Statement => e.1) s.result hinv.tags
    (fun i => s.result.filter (fun e => decide (e.1 = i))) (fun i _ => rfl)
  have hmap := (hperm.map Prod.snd).symm
  rw [List.map_flatten, List.map_map] at hmap
  have hstreams : (List.range n).map
      (List.map Prod.snd ∘ fun i => s.result.filter (fun e => decide (e.1 = i)))
      = (List.range n).map stream := by
    apply List.map_congr_left
    intro i hi
    exact hrec i (List.mem_range.mp hi)
  rw [hstreams] at hmap
  exact hmap

/-- C9: under every schedule of the worker threads of `GetStatements`, at no point are two
workers inside `result->Write`; the records written so far by worker `i` are the first records
of the stream of shard `i`, in the order of that stream, and every record written comes from
one worker; the handler returns exactly when the workers have made all their moves, six for
each record and one more for each shard; when it returns, the status is OK, the records written
by worker `i` are the whole stream of shard `i`, and the client has received a rearrangement of
the shard streams put end to end, as many records as the shards emitted; and every schedule
can be continued until the handler returns. -/
theorem GetStatements_merges_shard_streams (shard : Nat → Statement → List Statement)
    (pattern : Statement) (backends : List String) (schedule : List Nat) :
    (∀ i j, i < backends.length → j < backends.length →
        ((GetStatements.run backends.length (GetStatements.init shard pattern)
          schedule).workers i).pc = Pc.writing →
        ((GetStatements.run backends.length (GetStatements.init shard pattern)
          schedule).workers j).pc = Pc.writing → i = j)
    ∧ (∀ i, i < backends.length →
        recordsFrom (GetStatements.run backends.length (GetStatements.init shard pattern)
          schedule).result i <+: shard i pattern)
    ∧ (∀ e ∈ (GetStatements.run backends.length (GetStatements.init shard pattern)
          schedule).result, e.1 < backends.length)
    ∧ (GetStatements shard pattern backends schedule ≠ none
        ↔ GetStatements.moves backends.length (GetStatements.init shard pattern) schedule
          = ((List.range backends.length).map
              (fun i => 6 * (shard i pattern).length + 1)).sum)
    ∧ (∀ out, GetStatements shard pattern backends schedule = some out →
        out.1 = Status.OK
        ∧ out.2 = (GetStatements.run backends.length (GetStatements.init shard pattern)
            schedule).result.map Prod.snd
        ∧ (∀ i, i < backends.length →
            recordsFrom (GetStatements.run backends.length (GetStatements.init shard pattern)
              schedule).result i = shard i pattern)
        ∧ out.2.Perm ((List.range backends.length).map (fun i => shard i pattern)).flatten
        ∧ out.2.length
            = ((List.range backends.length).map (fun i => (shard i pattern).length)).sum)
    ∧ (∃ more out, GetStatements shard pattern backends (schedule ++ more) = some out) := by
  have hinv := run_inv schedule (init_inv backends.length shard pattern)
  have hrem := run_remaining backends.length schedule (GetStatements.init shard pattern)
  rw [remainingSteps_init] at hrem
  refine ⟨?_, ?_, hinv.tags, ?_, ?_, ?_⟩
  · intro i j hi hj hpi hpj
    have h1 := hinv.mutex_of_holds hi (by rw [hpi]; rfl)
    have h2 := hinv.mutex_of_holds hj (by rw [hpj]; rfl)
    rw [h1] at h2
    exact Option.some.inj h2
  · intro i hi
    have h := hinv.records i hi
    rw [List.append_assoc] at h
    exact ⟨_, h⟩
  · have hiff := allFinished_iff_remaining backends.length
      (GetStatements.run backends.length (GetStatements.init shard pattern) schedule)
    constructor
    · intro hne
      have hfin : allFinished backends.length
          (GetStatements.run backends.length (GetStatements.init shard pattern) schedule)
          = true := by
        by_contra hcon
        apply hne
        simp [GetStatements, hcon]
      have := hiff.mp hfin
      omega
    · intro hmoves
      have hfin := hiff.mpr (by omega)
      simp [GetStatements, hfin]
  · intro out hout
    simp only [GetStatements] at hout
    split at hout
    swap
    · cases hout
    rename_i hfin
    cases hout
    obtain ⟨hrec, hperm⟩ := merged_of_allFinished hinv hfin
    refine ⟨rfl, rfl, hrec, hperm, ?_⟩
    rw [hperm.length_eq, List.length_flatten, List.map_map]
    rfl
  · obtain ⟨more, hmore⟩ := completion _ _ hinv rfl
    refine ⟨more, (Status.OK, (GetStatements.run backends.length
      (GetStatements.init shard pattern) (schedule ++ more)).result.map Prod.snd), ?_⟩
    simp only [GetStatements, run_append, hmore, if_true]

/-- Witness for C9: shard 0 emits `a` and `b`, shard 1 emits `c`; under a schedule in which
worker 1 takes the mutex first and worker 0 waits, the handler returns OK and the client
receives `c`, `a`, `b`. -/
theorem GetStatements_merges_shard_streams_witness :
    GetStatements (fun i _ => if i = 0 then [⟨"a", "p", "o", "g"⟩, ⟨"b", "p", "o", "g"⟩]
        else [⟨"c", "p", "o", "g"⟩]) Statement.fresh ["shard0", "shard1"]
        [0, 1, 1, 0, 1, 1, 1, 1, 0, 0, 0, 0, 0, 0, 1, 0, 0, 0, 0, 0, 0]
      = some (Status.OK,
          [⟨"c", "p", "o", "g"⟩, ⟨"a", "p", "o", "g"⟩, ⟨"b", "p", "o", "g"⟩])
    ∧ ([⟨"c", "p", "o", "g"⟩, ⟨"a", "p", "o", "g"⟩, ⟨"b", "p", "o", "g"⟩] :
        List Statement).Perm
        [⟨"a", "p", "o", "g"⟩, ⟨"b", "p", "o", "g"⟩, ⟨"c", "p", "o", "g"⟩] := by
  have hrun : GetStatements (fun i _ => if i = 0 then
        [⟨"a", "p", "o", "g"⟩, ⟨"b", "p", "o", "g"⟩] else [⟨"c", "p", "o", "g"⟩])
      Statement.fresh ["shard0", "shard1"]
      [0, 1, 1, 0, 1, 1, 1, 1, 0, 0, 0, 0, 0, 0, 1, 0, 0, 0, 0, 0, 0]
      = some (Status.OK,
          [⟨"c", "p", "o", "g"⟩, ⟨"a", "p", "o", "g"⟩, ⟨"b", "p", "o", "g"⟩]) := by decide
  have hall := (GetStatements_merges_shard_streams (fun i _ => if i = 0 then
        [⟨"a", "p", "o", "g"⟩, ⟨"b", "p", "o", "g"⟩] else [⟨"c", "p", "o", "g"⟩])
      Statement.fresh ["shard0", "shard1"]
      [0, 1, 1, 0, 1, 1, 1, 1, 0, 0, 0, 0, 0, 0, 1, 0, 0, 0, 0, 0, 0]).2.2.2.2.1 _ hrun
  exact ⟨hrun, hall.2.2.2.1⟩

end marmotta.sharding
